import Mathlib

/-!
Verification of the TMCMC core (`src/modules/performUQ/common/tmcmc.py`).

The Python module is shallowly embedded over the real numbers: numpy arrays
of log-likelihoods become `List ℝ`, samples become `List (List ℝ)` (rows of
coordinates), the integer-keyed stage dictionaries become `ℕ → Option _`
maps, and fallible code returns `Except`.  Floating point is idealised to
exact real arithmetic (the spec states its numerical laws "over real
arithmetic"); division by zero follows Lean's `x / 0 = 0` convention.
-/

namespace TMCMCModel

/-- Maximum entry of a list of reals, mirroring `np.max` on a nonempty
array; the value on the empty list is irrelevant. -/
noncomputable def listMax : List ℝ → ℝ
  | [] => 0
  | x :: xs => xs.foldl max x

/-- Dot product of two real lists. -/
noncomputable def dotList (x y : List ℝ) : ℝ :=
  (List.zipWith (fun a b => a * b) x y).sum

/-- Shared normalisation kernel of `_calculate_weights` and
`_calculate_weights_warm_start`: subtract the maximum from the log-weights,
exponentiate, and normalise by the sum. -/
noncomputable def normalizeLogWeights (logWeights : List ℝ) : List ℝ :=
  let normalizedLogWeights := logWeights.map (fun x => x - listMax logWeights)
  let normalizedWeights := normalizedLogWeights.map Real.exp
  normalizedWeights.map (fun x => x / normalizedWeights.sum)

/-- `_calculate_weights(beta_increment, log_likelihoods)`. -/
noncomputable def calculateWeights (betaIncrement : ℝ) (logLikelihoods : List ℝ) : List ℝ :=
  normalizeLogWeights (logLikelihoods.map (fun x => betaIncrement * x))

/-- `_calculate_weights_warm_start(beta, current_loglikelihoods, previous_loglikelihoods)`. -/
noncomputable def calculateWeightsWarmStart (beta : ℝ)
    (currentLoglikelihoods previousLoglikelihoods : List ℝ) : List ℝ :=
  normalizeLogWeights
    (List.zipWith (fun a b => beta * (a - b)) currentLoglikelihoods previousLoglikelihoods)

/-- `scipy.special.logsumexp`, as it is computed: shift by the maximum,
exponentiate, sum, take the logarithm and shift back. -/
noncomputable def logSumExp (xs : List ℝ) : ℝ :=
  Real.log ((xs.map (fun x => Real.exp (x - listMax xs))).sum) + listMax xs

/-- `_calculate_log_evidence(beta_increment, log_likelihoods)`. -/
noncomputable def calculateLogEvidence (betaIncrement : ℝ) (logLikelihoods : List ℝ) : ℝ :=
  logSumExp (logLikelihoods.map (fun x => betaIncrement * x)) -
    Real.log logLikelihoods.length

/-- `np.nanmean` on an array without NaNs (the embedding has no NaNs). -/
noncomputable def nanmean (xs : List ℝ) : ℝ := xs.sum / xs.length

/-- `np.nanstd` on an array without NaNs: population standard deviation. -/
noncomputable def nanstd (xs : List ℝ) : ℝ :=
  Real.sqrt ((xs.map (fun x => (x - nanmean xs) ^ 2)).sum / xs.length)

/-- The coefficient of variation `np.nanstd(weights) / np.nanmean(weights)`
used throughout the module. -/
noncomputable def weightsCov (weights : List ℝ) : ℝ := nanstd weights / nanmean weights

/-- The local `cov_objective` of `_increment_beta`. -/
noncomputable def covObjective (logLikelihoods : List ℝ) (thresholdCov betaIncrement : ℝ) : ℝ :=
  weightsCov (calculateWeights betaIncrement logLikelihoods) - thresholdCov

/-- `np.sign` on reals. -/
noncomputable def npSign (x : ℝ) : ℝ :=
  if 0 < x then 1 else if x < 0 then -1 else 0

/-- Absolute tolerance of `scipy.optimize.root_scalar(..., method='bisect')`. -/
noncomputable def bisectXtol : ℝ := 2e-12

/-- Bisection on a bracket, modelling `scipy.optimize.root_scalar` with
`method='bisect'`: halve the bracket, keeping the sign change, until the
root is hit or the bracket is below the tolerance; report the midpoint and
whether the iteration converged within the budget (scipy's `maxiter`). -/
noncomputable def bisectAux (f : ℝ → ℝ) : ℕ → ℝ → ℝ → ℝ × Bool
  | 0, a, b => ((a + b) / 2, false)
  | n + 1, a, b =>
      let m := (a + b) / 2
      if f m = 0 ∨ (b - a) / 2 < bisectXtol then (m, true)
      else if 0 ≤ f a * f m then bisectAux f n m b else bisectAux f n a m

/-- Iteration budget for the trial-and-error fallback loop of
`_increment_beta` (a `while` loop in the source, modelled with fuel). -/
def shrinkFuel : ℕ := 100000

/-- The trial-and-error fallback of `_increment_beta`: multiply the beta
increment by 0.99 while the coefficient of variation of the weights exceeds
the threshold. -/
noncomputable def shrinkBeta (logLikelihoods : List ℝ) (thresholdCov : ℝ) :
    ℕ → ℝ → ℝ
  | 0, betaIncrement => betaIncrement
  | n + 1, betaIncrement =>
      if thresholdCov < weightsCov (calculateWeights betaIncrement logLikelihoods) then
        shrinkBeta logLikelihoods thresholdCov n (0.99 * betaIncrement)
      else betaIncrement

/-- `_increment_beta(log_likelihoods, beta, threshold_cov)`.  The sign
check decides feasibility; on a valid bracket the root is found by
bisection; if bisection fails to converge the 0.99-shrinkage fallback is
used.  The returned beta is clamped to 1. -/
noncomputable def incrementBeta (logLikelihoods : List ℝ) (beta thresholdCov : ℝ) : ℝ :=
  if npSign (covObjective logLikelihoods thresholdCov 0)
      = npSign (covObjective logLikelihoods thresholdCov (1 - beta)) then 1
  else
    let r := bisectAux (covObjective logLikelihoods thresholdCov) 100 0 (1 - beta)
    if r.2 then min (beta + r.1) 1
    else min (beta + shrinkBeta logLikelihoods thresholdCov shrinkFuel (1 - beta)) 1

/-! ### Elementary facts about the weight kernel -/

theorem sum_map_div (xs : List ℝ) (c : ℝ) :
    (xs.map (fun x => x / c)).sum = xs.sum / c := by
  induction xs with
  | nil => simp
  | cons y ys ih => simp [ih, add_div]

theorem sum_map_exp_nonneg (xs : List ℝ) : 0 ≤ (xs.map Real.exp).sum := by
  induction xs with
  | nil => simp
  | cons y ys ih =>
      simp only [List.map_cons, List.sum_cons]
      exact add_nonneg (Real.exp_pos y).le ih

theorem sum_map_exp_pos (xs : List ℝ) (h : xs ≠ []) : 0 < (xs.map Real.exp).sum := by
  cases xs with
  | nil => exact absurd rfl h
  | cons y ys =>
      simp only [List.map_cons, List.sum_cons]
      exact add_pos_of_pos_of_nonneg (Real.exp_pos y) (sum_map_exp_nonneg ys)

theorem normalizeLogWeights_eq (logWeights : List ℝ) :
    normalizeLogWeights logWeights =
      (logWeights.map (fun x => Real.exp (x - listMax logWeights))).map
        (fun x => x / (logWeights.map (fun x => Real.exp (x - listMax logWeights))).sum) := by
  simp [normalizeLogWeights, List.map_map, Function.comp_def]

theorem normalizeLogWeights_nonneg (logWeights : List ℝ) :
    ∀ w ∈ normalizeLogWeights logWeights, 0 ≤ w := by
  intro w hw
  rw [normalizeLogWeights_eq] at hw
  rcases List.mem_map.mp hw with ⟨x, hx, rfl⟩
  rcases List.mem_map.mp hx with ⟨y, _, rfl⟩
  rcases eq_or_ne (logWeights.map (fun x => Real.exp (x - listMax logWeights))).sum 0 with h | h
  · simp [h]
  · have hpos : 0 < (logWeights.map (fun x => Real.exp (x - listMax logWeights))).sum := by
      rcases lt_or_eq_of_le (sum_map_exp_nonneg
        (logWeights.map (fun x => x - listMax logWeights))) with h' | h'
      · simpa [List.map_map, Function.comp] using h'
      · exact absurd h'.symm (by simpa [List.map_map, Function.comp] using h)
    exact div_nonneg (Real.exp_pos _).le hpos.le

theorem normalizeLogWeights_sum_one (logWeights : List ℝ) (h : logWeights ≠ []) :
    (normalizeLogWeights logWeights).sum = 1 := by
  rw [normalizeLogWeights_eq, sum_map_div]
  have hne : (logWeights.map (fun x => x - listMax logWeights)) ≠ [] := by
    simpa using h
  have hpos := sum_map_exp_pos (logWeights.map (fun x => x - listMax logWeights)) hne
  rw [List.map_map] at hpos
  have hpos' : 0 < (logWeights.map (fun x => Real.exp (x - listMax logWeights))).sum := by
    simpa [Function.comp] using hpos
  exact div_self hpos'.ne'

/-- Claim C5: for every beta increment at least 0 and every (finite,
nonempty) log-likelihood vector, the weights returned by
`_calculate_weights` are all nonnegative and sum exactly to 1 over real
arithmetic. -/
theorem calculateWeights_nonneg_sum_one (betaIncrement : ℝ) (logLikelihoods : List ℝ)
    (_hβ : 0 ≤ betaIncrement) (hne : logLikelihoods ≠ []) :
    (∀ w ∈ calculateWeights betaIncrement logLikelihoods, 0 ≤ w) ∧
      (calculateWeights betaIncrement logLikelihoods).sum = 1 := by
  refine ⟨normalizeLogWeights_nonneg _, ?_⟩
  exact normalizeLogWeights_sum_one _ (by simpa using hne)

theorem calculateWeights_nonneg_sum_one_witness :
    (∀ w ∈ calculateWeights 1 [0, 2], 0 ≤ w) ∧ (calculateWeights 1 [0, 2]).sum = 1 :=
  calculateWeights_nonneg_sum_one 1 [0, 2] (by norm_num) (by simp)

/-! ### Sign and coefficient-of-variation computations -/

theorem npSign_of_pos {x : ℝ} (h : 0 < x) : npSign x = 1 := by
  rw [npSign, if_pos h]

theorem npSign_of_neg {x : ℝ} (h : x < 0) : npSign x = -1 := by
  rw [npSign, if_neg (by linarith), if_pos h]

theorem nanmean_pair (a b : ℝ) : nanmean [a, b] = (a + b) / 2 := by
  simp [nanmean]

theorem nanstd_pair (a b : ℝ) (hle : a ≤ b) : nanstd [a, b] = (b - a) / 2 := by
  rw [nanstd, nanmean_pair]
  simp only [List.map_cons, List.map_nil, List.sum_cons, List.sum_nil,
    List.length_cons, List.length_nil]
  have h2 : ((a - (a + b) / 2) ^ 2 + ((b - (a + b) / 2) ^ 2 + 0)) / ((0 + 1 + 1 : ℕ) : ℝ)
      = ((b - a) / 2) ^ 2 := by
    push_cast
    ring
  rw [h2, Real.sqrt_sq (by linarith)]

theorem weightsCov_pair (a b : ℝ) (hle : a ≤ b) :
    weightsCov [a, b] = (b - a) / (a + b) := by
  rw [weightsCov, nanstd_pair a b hle, nanmean_pair]
  rcases eq_or_ne (a + b) 0 with h | h
  · rw [h]
    simp
  · field_simp

theorem calculateWeights_one_pair :
    calculateWeights 1 [0, 2] =
      [Real.exp (-2) / (Real.exp (-2) + 1), 1 / (Real.exp (-2) + 1)] := by
  have h1 : ([0, 2] : List ℝ).map (fun x => 1 * x) = [0, 2] := by norm_num
  have hmax : listMax [(0 : ℝ), 2] = 2 := by
    rw [listMax]
    simp [max_eq_right (by norm_num : (0:ℝ) ≤ 2)]
  rw [calculateWeights, h1, normalizeLogWeights_eq, hmax]
  norm_num [Real.exp_zero]

theorem exp_neg_two_pos : 0 < Real.exp (-2) := Real.exp_pos _

theorem exp_neg_two_lt_third : Real.exp (-2) < 1 / 3 := by
  have h3 : (3 : ℝ) < Real.exp 2 := by
    have := Real.add_one_lt_exp (x := 2) (by norm_num)
    linarith
  have hpos : (0 : ℝ) < Real.exp 2 := Real.exp_pos _
  rw [Real.exp_neg]
  rw [inv_lt_iff_one_lt_mul₀ hpos]
  nlinarith

theorem covtwo_eq :
    weightsCov (calculateWeights 1 [0, 2]) =
      (1 - Real.exp (-2)) / (1 + Real.exp (-2)) := by
  have he0 := exp_neg_two_pos
  have he1 : Real.exp (-2) < 1 := by
    have := exp_neg_two_lt_third
    linarith
  have hS : (0 : ℝ) < Real.exp (-2) + 1 := by linarith
  rw [calculateWeights_one_pair,
    weightsCov_pair _ _ ((div_le_div_iff_of_pos_right hS).mpr he1.le)]
  rw [div_add_div_same, div_sub_div_same, div_self hS.ne', div_one,
    add_comm (Real.exp (-2)) 1]

theorem covtwo_gt_half :
    1 / 2 < weightsCov (calculateWeights 1 [0, 2]) := by
  have he0 := exp_neg_two_pos
  have he3 := exp_neg_two_lt_third
  rw [covtwo_eq, lt_div_iff₀ (by linarith : (0 : ℝ) < 1 + Real.exp (-2))]
  linarith

theorem covtwo_lt_one :
    weightsCov (calculateWeights 1 [0, 2]) < 1 := by
  have he0 := exp_neg_two_pos
  rw [covtwo_eq, div_lt_one (by linarith : (0 : ℝ) < 1 + Real.exp (-2))]
  linarith

/-! ### Bisection and fallback-loop lemmas -/

theorem bisectXtol_pos : 0 < bisectXtol := by norm_num [bisectXtol]

theorem bisectAux_mem (f : ℝ → ℝ) :
    ∀ (n : ℕ) (a b : ℝ), a ≤ b →
      a ≤ (bisectAux f n a b).1 ∧ (bisectAux f n a b).1 ≤ b := by
  intro n
  induction n with
  | zero =>
      intro a b hab
      constructor <;> simp only [bisectAux] <;> linarith
  | succ n ih =>
      intro a b hab
      simp only [bisectAux]
      by_cases h1 : f ((a + b) / 2) = 0 ∨ (b - a) / 2 < bisectXtol
      · rw [if_pos h1]
        constructor <;> dsimp <;> linarith
      · rw [if_neg h1]
        by_cases h2 : 0 ≤ f a * f ((a + b) / 2)
        · rw [if_pos h2]
          have h := ih ((a + b) / 2) b (by linarith)
          exact ⟨by linarith [h.1], h.2⟩
        · rw [if_neg h2]
          have h := ih a ((a + b) / 2) (by linarith)
          exact ⟨h.1, by linarith [h.2]⟩

theorem bisectAux_strict_mem (f : ℝ → ℝ) :
    ∀ (n : ℕ) (a b : ℝ), a < b →
      a < (bisectAux f n a b).1 ∧ (bisectAux f n a b).1 < b := by
  intro n
  induction n with
  | zero =>
      intro a b hab
      constructor <;> simp only [bisectAux] <;> linarith
  | succ n ih =>
      intro a b hab
      simp only [bisectAux]
      by_cases h1 : f ((a + b) / 2) = 0 ∨ (b - a) / 2 < bisectXtol
      · rw [if_pos h1]
        constructor <;> dsimp <;> linarith
      · rw [if_neg h1]
        by_cases h2 : 0 ≤ f a * f ((a + b) / 2)
        · rw [if_pos h2]
          have h := ih ((a + b) / 2) b (by linarith)
          exact ⟨by linarith [h.1], h.2⟩
        · rw [if_neg h2]
          have h := ih a ((a + b) / 2) (by linarith)
          exact ⟨h.1, by linarith [h.2]⟩

theorem bisectAux_converged (f : ℝ → ℝ) :
    ∀ (n : ℕ) (a b : ℝ), b - a < bisectXtol * 2 ^ n →
      (bisectAux f (n + 1) a b).2 = true := by
  intro n
  induction n with
  | zero =>
      intro a b h
      have hx := bisectXtol_pos
      simp only [pow_zero, mul_one] at h
      simp only [bisectAux]
      rw [if_pos (Or.inr (by linarith))]
  | succ n ih =>
      intro a b h
      simp only [bisectAux]
      by_cases h1 : f ((a + b) / 2) = 0 ∨ (b - a) / 2 < bisectXtol
      · rw [if_pos h1]
      · rw [if_neg h1]
        have hpow : (2 : ℝ) ^ (n + 1) = 2 ^ n * 2 := by ring
        by_cases h2 : 0 ≤ f a * f ((a + b) / 2)
        · rw [if_pos h2]
          apply ih
          rw [hpow] at h
          linarith
        · rw [if_neg h2]
          apply ih
          rw [hpow] at h
          linarith

theorem shrinkBeta_mem (l : List ℝ) (τ : ℝ) :
    ∀ (n : ℕ) (d : ℝ), 0 ≤ d →
      0 ≤ shrinkBeta l τ n d ∧ shrinkBeta l τ n d ≤ d := by
  intro n
  induction n with
  | zero =>
      intro d hd
      exact ⟨hd, le_refl d⟩
  | succ n ih =>
      intro d hd
      simp only [shrinkBeta]
      by_cases h : τ < weightsCov (calculateWeights d l)
      · rw [if_pos h]
        have h' := ih (0.99 * d) (by linarith)
        exact ⟨h'.1, by linarith [h'.2]⟩
      · rw [if_neg h]
        exact ⟨hd, le_refl d⟩

/-- Helper: `_increment_beta` always returns a value between the current
beta and 1 when the current beta lies in the unit interval. -/
theorem incrementBeta_bounds (l : List ℝ) (beta τ : ℝ)
    (_h0 : 0 ≤ beta) (h1 : beta ≤ 1) :
    beta ≤ incrementBeta l beta τ ∧ incrementBeta l beta τ ≤ 1 := by
  rw [incrementBeta]
  by_cases hsign : npSign (covObjective l τ 0) = npSign (covObjective l τ (1 - beta))
  · rw [if_pos hsign]
    exact ⟨h1, le_refl 1⟩
  · rw [if_neg hsign]
    by_cases hconv : (bisectAux (covObjective l τ) 100 0 (1 - beta)).2 = true
    · simp only [hconv, if_true]
      have hmem := bisectAux_mem (covObjective l τ) 100 0 (1 - beta) (by linarith)
      exact ⟨le_min (by linarith [hmem.1]) h1, min_le_right _ _⟩
    · simp only [hconv, if_false]
      have hmem := shrinkBeta_mem l τ shrinkFuel (1 - beta) (by linarith)
      exact ⟨le_min (by linarith [hmem.1]) h1, min_le_right _ _⟩

/-- At the failing input of claim C1 the default threshold jumps beta
straight to 1. -/
theorem incrementBeta_two_default : incrementBeta [0, 2] 0 1 = 1 := by
  have hc0 : calculateWeights 0 [0, 2] = [1 / 2, 1 / 2] := by
    have h1 : ([0, 2] : List ℝ).map (fun x => 0 * x) = [0, 0] := by norm_num
    have hmax : listMax [(0 : ℝ), 0] = 0 := by
      rw [listMax]
      simp
    rw [calculateWeights, h1, normalizeLogWeights_eq, hmax]
    norm_num [Real.exp_zero]
  have hf0 : covObjective [0, 2] 1 0 = -1 := by
    rw [covObjective, hc0, weightsCov_pair _ _ (le_refl _)]
    norm_num
  have hf1 : covObjective [0, 2] 1 (1 - 0) = weightsCov (calculateWeights 1 [0, 2]) - 1 := by
    rw [covObjective]
    norm_num
  rw [incrementBeta, if_pos]
  rw [hf0, hf1, npSign_of_neg (by norm_num), npSign_of_neg (by linarith [covtwo_lt_one])]

/-- At the failing input of claim C1 the configured threshold 1/2 leads to
bisection and a new beta strictly below 1. -/
theorem incrementBeta_two_half_lt_one : incrementBeta [0, 2] 0 (1 / 2) < 1 := by
  have hc0 : calculateWeights 0 [0, 2] = [1 / 2, 1 / 2] := by
    have h1 : ([0, 2] : List ℝ).map (fun x => 0 * x) = [0, 0] := by norm_num
    have hmax : listMax [(0 : ℝ), 0] = 0 := by
      rw [listMax]
      simp
    rw [calculateWeights, h1, normalizeLogWeights_eq, hmax]
    norm_num [Real.exp_zero]
  have hf0 : covObjective [0, 2] (1 / 2) 0 = -(1 / 2) := by
    rw [covObjective, hc0, weightsCov_pair _ _ (le_refl _)]
    norm_num
  have hf1 : 0 < covObjective [0, 2] (1 / 2) (1 - 0) := by
    rw [covObjective]
    norm_num
    linarith [covtwo_gt_half]
  rw [incrementBeta, if_neg]
  · have hconv : (bisectAux (covObjective [0, 2] (1 / 2)) 100 0 (1 - 0)).2 = true := by
      apply bisectAux_converged
      rw [bisectXtol]
      norm_num
    simp only [hconv, if_true]
    have hlt := (bisectAux_strict_mem (covObjective [0, 2] (1 / 2)) 100 0 (1 - 0)
      (by norm_num)).2
    calc min (0 + (bisectAux (covObjective [0, 2] (1 / 2)) 100 0 (1 - 0)).1) 1
        ≤ 0 + (bisectAux (covObjective [0, 2] (1 / 2)) 100 0 (1 - 0)).1 := min_le_left _ _
      _ < 1 := by linarith
  · rw [hf0, npSign_of_neg (by norm_num), npSign_of_pos hf1]
    norm_num

/-! ### Constant log-likelihood vectors (claim C6) -/

theorem foldl_max_replicate (c : ℝ) : ∀ n : ℕ, (List.replicate n c).foldl max c = c := by
  intro n
  induction n with
  | zero => rfl
  | succ n ih => simp [List.replicate_succ, ih]

theorem listMax_replicate (n : ℕ) (c : ℝ) (h : 1 ≤ n) :
    listMax (List.replicate n c) = c := by
  cases n with
  | zero => omega
  | succ n =>
      rw [List.replicate_succ, listMax]
      exact foldl_max_replicate c n

theorem calculateWeights_replicate (d c : ℝ) (n : ℕ) (h : 1 ≤ n) :
    calculateWeights d (List.replicate n c) = List.replicate n (1 / (n : ℝ)) := by
  rw [calculateWeights, List.map_replicate, normalizeLogWeights_eq,
    listMax_replicate n (d * c) h]
  simp [List.map_replicate, List.sum_replicate, one_div]

theorem nanmean_replicate (n : ℕ) (r : ℝ) (h : 1 ≤ n) :
    nanmean (List.replicate n r) = r := by
  have hn : ((n : ℝ)) ≠ 0 := Nat.cast_ne_zero.mpr (by omega)
  rw [nanmean]
  simp only [List.sum_replicate, List.length_replicate, nsmul_eq_mul]
  field_simp

theorem weightsCov_replicate (n : ℕ) (r : ℝ) (h : 1 ≤ n) :
    weightsCov (List.replicate n r) = 0 := by
  rw [weightsCov, nanstd, nanmean_replicate n r h]
  simp [List.map_replicate, List.sum_replicate]

/-- Claim C6: for a constant log-likelihood vector the coefficient of
variation of the weights is 0 for every beta increment, hence the
feasibility sign check of `_increment_beta` finds equal signs and the
function returns exactly 1 on the first call, for any starting beta in
[0, 1). -/
theorem constantLoglik_jumps_to_one (n : ℕ) (c beta thresholdCov betaIncrement : ℝ)
    (hn : 1 ≤ n) (_hb0 : 0 ≤ beta) (_hb1 : beta < 1) (_hτ : 0 < thresholdCov) :
    weightsCov (calculateWeights betaIncrement (List.replicate n c)) = 0 ∧
      npSign (covObjective (List.replicate n c) thresholdCov 0) =
        npSign (covObjective (List.replicate n c) thresholdCov (1 - beta)) ∧
      incrementBeta (List.replicate n c) beta thresholdCov = 1 := by
  have hcov : ∀ d : ℝ, weightsCov (calculateWeights d (List.replicate n c)) = 0 := by
    intro d
    rw [calculateWeights_replicate d c n hn, weightsCov_replicate n _ hn]
  have hobj : ∀ d : ℝ, covObjective (List.replicate n c) thresholdCov d = -thresholdCov := by
    intro d
    rw [covObjective, hcov]
    ring
  refine ⟨hcov betaIncrement, ?_, ?_⟩
  · rw [hobj, hobj]
  · rw [incrementBeta, if_pos (by rw [hobj, hobj])]

theorem constantLoglik_jumps_to_one_witness :
    weightsCov (calculateWeights 3 (List.replicate 2 5)) = 0 ∧
      npSign (covObjective (List.replicate 2 5) 1 0) =
        npSign (covObjective (List.replicate 2 5) 1 (1 - 0)) ∧
      incrementBeta (List.replicate 2 5) 0 1 = 1 :=
  constantLoglik_jumps_to_one 2 5 0 1 3 (by norm_num) (by norm_num) (by norm_num) (by norm_num)

/-! ### The shifted log-sum-exp agrees with the mathematical one -/

theorem sum_map_exp_sub (xs : List ℝ) (m : ℝ) :
    (xs.map (fun x => Real.exp (x - m))).sum = (xs.map Real.exp).sum / Real.exp m := by
  induction xs with
  | nil => simp
  | cons y ys ih =>
      simp only [List.map_cons, List.sum_cons]
      rw [ih, Real.exp_sub, add_div]

theorem logSumExp_eq (xs : List ℝ) (h : xs ≠ []) :
    logSumExp xs = Real.log ((xs.map Real.exp).sum) := by
  rw [logSumExp, sum_map_exp_sub,
    Real.log_div (sum_map_exp_pos xs h).ne' (Real.exp_ne_zero _), Real.log_exp]
  ring

/-! ### Warm-start selector -/

/-- The contents of the `previous_results` tuple consumed by
`calculate_warm_start_stage`: the per-stage samples, betas and
log-likelihood dictionaries, with the dictionary's key set kept
separately. -/
structure PreviousResults where
  samples : ℕ → List (List ℝ)
  betas : ℕ → ℝ
  logLikelihoods : ℕ → List ℝ
  stageKeys : List ℕ

/-- Insertion into a descending list, the building block of
`sorted(keys, reverse=True)`. -/
def insertDesc (x : ℕ) : List ℕ → List ℕ
  | [] => [x]
  | y :: ys => if y ≤ x then x :: y :: ys else y :: insertDesc x ys

/-- `sorted(previous_results[0].keys(), reverse=True)`. -/
def sortDesc (l : List ℕ) : List ℕ := l.foldr insertDesc []

/-- Maximum of a list of stage keys. -/
def listMaxNat (l : List ℕ) : ℕ := l.foldr max 0

/-- The `for stage_num in stage_nums` loop of `calculate_warm_start_stage`:
return the first stage whose re-weighted coefficient of variation is below
the threshold, else 0. -/
noncomputable def warmStartLoop (f : List (List ℝ) → List ℝ) (pr : PreviousResults)
    (thresholdCov : ℝ) : List ℕ → ℕ
  | [] => 0
  | k :: rest =>
      let currentLoglikelihoods := f (pr.samples k)
      let previousLoglikelihoods := pr.logLikelihoods k
      let weights :=
        calculateWeightsWarmStart (pr.betas k) currentLoglikelihoods previousLoglikelihoods
      if weightsCov weights < thresholdCov then k
      else warmStartLoop f pr thresholdCov rest

/-- `calculate_warm_start_stage(current_loglikelihood_approximation,
previous_results, threshold_cov)`. -/
noncomputable def calculateWarmStartStage (f : List (List ℝ) → List ℝ)
    (pr : PreviousResults) (thresholdCov : ℝ) : ℕ :=
  warmStartLoop f pr thresholdCov (sortDesc pr.stageKeys)

theorem mem_insertDesc {a x : ℕ} : ∀ {l : List ℕ}, a ∈ insertDesc x l → a = x ∨ a ∈ l := by
  intro l
  induction l with
  | nil =>
      intro h
      simpa [insertDesc] using h
  | cons y ys ih =>
      intro h
      rw [insertDesc] at h
      by_cases hc : y ≤ x
      · rw [if_pos hc] at h
        simpa using h
      · rw [if_neg hc] at h
        rcases List.mem_cons.mp h with h | h
        · exact Or.inr (by simp [h])
        · rcases ih h with h | h
          · exact Or.inl h
          · exact Or.inr (List.mem_cons_of_mem _ h)

theorem mem_sortDesc {a : ℕ} : ∀ {l : List ℕ}, a ∈ sortDesc l → a ∈ l := by
  intro l
  induction l with
  | nil => intro h; simp [sortDesc] at h
  | cons y ys ih =>
      intro h
      rw [sortDesc, List.foldr_cons] at h
      rcases mem_insertDesc h with h | h
      · simp [h]
      · exact List.mem_cons_of_mem _ (ih h)

theorem sortDesc_head_max :
    ∀ (l : List ℕ), l ≠ [] → ∃ rest, sortDesc l = listMaxNat l :: rest := by
  intro l
  induction l with
  | nil => intro h; exact absurd rfl h
  | cons x xs ih =>
      intro _
      rw [sortDesc, List.foldr_cons, listMaxNat, List.foldr_cons]
      rcases eq_or_ne xs [] with hxs | hxs
      · subst hxs
        exact ⟨[], by simp [sortDesc, insertDesc, listMaxNat]⟩
      · obtain ⟨rest, hrest⟩ := ih hxs
        rw [show xs.foldr insertDesc [] = sortDesc xs from rfl, hrest,
          show xs.foldr max 0 = listMaxNat xs from rfl]
        rw [insertDesc]
        by_cases hc : listMaxNat xs ≤ x
        · rw [if_pos hc, max_eq_left hc]
          exact ⟨listMaxNat xs :: rest, rfl⟩
        · rw [if_neg hc, max_eq_right (by omega)]
          exact ⟨insertDesc x rest, rfl⟩

theorem warmStartLoop_all_fail (f : List (List ℝ) → List ℝ) (pr : PreviousResults)
    (thresholdCov : ℝ) :
    ∀ L : List ℕ,
      (∀ k ∈ L, ¬ (weightsCov (calculateWeightsWarmStart (pr.betas k) (f (pr.samples k))
          (pr.logLikelihoods k)) < thresholdCov)) →
      warmStartLoop f pr thresholdCov L = 0 := by
  intro L
  induction L with
  | nil => intro _; rfl
  | cons k rest ih =>
      intro hall
      rw [warmStartLoop]
      rw [if_neg (hall k (by simp))]
      exact ih (fun j hj => hall j (List.mem_cons_of_mem _ hj))

theorem zipWith_sub_self (beta : ℝ) :
    ∀ l : List ℝ, List.zipWith (fun a b => beta * (a - b)) l l = List.replicate l.length 0 := by
  intro l
  induction l with
  | nil => rfl
  | cons x xs ih => simp [List.replicate_succ, ih]

theorem normalizeLogWeights_replicate (n : ℕ) (x : ℝ) (h : 1 ≤ n) :
    normalizeLogWeights (List.replicate n x) = List.replicate n (1 / (n : ℝ)) := by
  rw [normalizeLogWeights_eq, listMax_replicate n x h]
  simp [List.map_replicate, List.sum_replicate, one_div]

theorem weightsCov_nil : weightsCov [] = 0 := by
  rw [weightsCov, nanstd, nanmean]
  simp

theorem weightsCov_warm_self (beta : ℝ) (l : List ℝ) :
    weightsCov (calculateWeightsWarmStart beta l l) = 0 := by
  rw [calculateWeightsWarmStart, zipWith_sub_self]
  cases l with
  | nil => simpa [normalizeLogWeights] using weightsCov_nil
  | cons x xs =>
      rw [normalizeLogWeights_replicate _ _ (by simp)]
      exact weightsCov_replicate _ _ (by simp)

/-- Claim C8: if the new log-likelihood approximation reproduces the stored
log-likelihoods of the highest stage exactly, `calculate_warm_start_stage`
returns the maximum stage key for any positive threshold; and if no stage
satisfies the CoV-below-threshold condition it returns 0. -/
theorem calculateWarmStartStage_cases (f : List (List ℝ) → List ℝ)
    (pr : PreviousResults) (thresholdCov : ℝ) (hτ : 0 < thresholdCov) :
    (pr.stageKeys ≠ [] →
      f (pr.samples (listMaxNat pr.stageKeys)) = pr.logLikelihoods (listMaxNat pr.stageKeys) →
      calculateWarmStartStage f pr thresholdCov = listMaxNat pr.stageKeys) ∧
    ((∀ k ∈ pr.stageKeys,
        ¬ (weightsCov (calculateWeightsWarmStart (pr.betas k) (f (pr.samples k))
            (pr.logLikelihoods k)) < thresholdCov)) →
      calculateWarmStartStage f pr thresholdCov = 0) := by
  constructor
  · intro hne hf
    obtain ⟨rest, hsort⟩ := sortDesc_head_max pr.stageKeys hne
    rw [calculateWarmStartStage, hsort, warmStartLoop]
    rw [hf, if_pos (by rw [weightsCov_warm_self]; exact hτ)]
  · intro hall
    rw [calculateWarmStartStage]
    exact warmStartLoop_all_fail f pr thresholdCov _
      (fun k hk => hall k (mem_sortDesc hk))

theorem warm_pair_eq : calculateWeightsWarmStart 1 [0, 2] [0, 0] = calculateWeights 1 [0, 2] := by
  rw [calculateWeightsWarmStart, calculateWeights]
  norm_num

theorem calculateWarmStartStage_cases_witness :
    calculateWarmStartStage (fun _ => [7])
        ⟨fun _ => [[0]], fun _ => 1, fun _ => [7], [0, 1]⟩ 1 = 1 ∧
      calculateWarmStartStage (fun _ => [0, 2])
        ⟨fun _ => [[0]], fun _ => 1, fun _ => [0, 0], [0]⟩ (1 / 10) = 0 := by
  constructor
  · have h := (calculateWarmStartStage_cases (fun _ => [7])
      ⟨fun _ => [[0]], fun _ => 1, fun _ => [7], [0, 1]⟩ 1 (by norm_num)).1
      (by simp) rfl
    simpa [listMaxNat] using h
  · apply (calculateWarmStartStage_cases (fun _ => [0, 2])
      ⟨fun _ => [[0]], fun _ => 1, fun _ => [0, 0], [0]⟩ (1 / 10) (by norm_num)).2
    intro k hk
    have hk0 : k = 0 := by simpa using hk
    subst hk0
    show ¬ weightsCov (calculateWeightsWarmStart 1 [0, 2] [0, 0]) < 1 / 10
    rw [warm_pair_eq]
    have := covtwo_gt_half
    intro hlt
    linarith

/-! ### Proposal covariance and Cholesky factorisation -/

/-- A square list-of-rows matrix built from an entry function. -/
noncomputable def matOfFn (n : ℕ) (h : ℕ → ℕ → ℝ) : List (List ℝ) :=
  (List.range n).map (fun i => (List.range n).map (h i))

/-- Entry (i, j) of `scale_factor**2 * np.cov(samples, rowvar=False,
aweights=weights)`: with v1 = Σw and v2 = Σw², the weighted column means
are μ_k = Σ w·x_k / v1 and the denominator is v1 - v2/v1 (numpy's `ddof=1`
normalisation for analytic weights). -/
noncomputable def scaledCovEntry (samples : List (List ℝ)) (weights : List ℝ)
    (scaleFactor : ℝ) (i j : ℕ) : ℝ :=
  let v1 := weights.sum
  let v2 := (weights.map (fun w => w * w)).sum
  let fact := v1 - v2 / v1
  let colMean := fun k =>
    (List.zipWith (fun w row => w * row.getD k 0) weights samples).sum / v1
  scaleFactor ^ 2 *
    ((List.zipWith
        (fun w row => w * (row.getD i 0 - colMean i) * (row.getD j 0 - colMean j))
        weights samples).sum / fact)

/-- `_get_scaled_proposal_covariance(samples, weights, scale_factor)`. -/
noncomputable def scaledProposalCovariance (samples : List (List ℝ)) (weights : List ℝ)
    (scaleFactor : ℝ) : List (List ℝ) :=
  matOfFn (samples.headD []).length (scaledCovEntry samples weights scaleFactor)

/-- The Schur complement built inside one Cholesky elimination step. -/
noncomputable def cholSchur (v : List ℝ) (rest : List (List ℝ)) : List (List ℝ) :=
  List.zipWith (fun r vi => List.zipWith (fun x vj => x - vi * vj) r.tail v) rest v

/-- `np.linalg.cholesky` on a square list-of-rows matrix, reading the lower
triangle: the lower-triangular factor, or `none` when a pivot is not
positive (LAPACK `potrf` failure, surfaced as `LinAlgError`). -/
noncomputable def cholList : List (List ℝ) → Option (List (List ℝ))
  | [] => some []
  | row :: rest =>
      if row.headD 0 ≤ 0 then none
      else
        let l := Real.sqrt (row.headD 0)
        let v := (rest.map (fun r => r.headD 0)).map (fun x => x / l)
        match cholList (cholSchur v rest) with
        | none => none
        | some L =>
            some ((l :: List.replicate rest.length 0) ::
              List.zipWith (fun vi Lrow => vi :: Lrow) v L)
termination_by A => A.length
decreasing_by
  simp only [cholSchur, List.length_zipWith, List.length_cons]
  omega

/-- The quadratic form x ↦ xᵀ A x of a list-of-rows matrix. -/
noncomputable def qform (A : List (List ℝ)) (x : List ℝ) : ℝ :=
  (List.zipWith (fun xi row => xi * dotList row x) x A).sum

/-- Positive definiteness of a list-of-rows matrix: the quadratic form is
positive on every vector of matching length with a nonzero entry. -/
def PosDefList (A : List (List ℝ)) : Prop :=
  ∀ x : List ℝ, x.length = A.length →
    (∃ i, i < x.length ∧ x.getD i 0 ≠ 0) → 0 < qform A x

/-- Symmetric square list matrices, characterised by peeling the first row
and column: the first row after the pivot equals the first column below it
and the minor is again symmetric square. -/
inductive IsSymmSquare : List (List ℝ) → Prop
  | nil : IsSymmSquare []
  | cons (a : ℝ) (c : List ℝ) (rest : List (List ℝ))
      (hc : c = rest.map (fun r => r.headD 0))
      (hlen : rest.length = c.length)
      (hrows : ∀ r ∈ rest, r.length = c.length + 1)
      (hminor : IsSymmSquare (rest.map (fun r => r.tail)))
      : IsSymmSquare ((a :: c) :: rest)

/-! ### Dot-product and quadratic-form lemmas -/

theorem dotList_nil_left (y : List ℝ) : dotList [] y = 0 := rfl

theorem dotList_nil_right (x : List ℝ) : dotList x [] = 0 := by
  cases x <;> rfl

theorem dotList_cons (a x₀ : ℝ) (c y : List ℝ) :
    dotList (a :: c) (x₀ :: y) = a * x₀ + dotList c y := rfl

theorem dotList_comm : ∀ (x y : List ℝ), dotList x y = dotList y x := by
  intro x
  induction x with
  | nil => intro y; rw [dotList_nil_left, dotList_nil_right]
  | cons a c ih =>
      intro y
      cases y with
      | nil => rw [dotList_nil_left, dotList_nil_right]
      | cons b d => rw [dotList_cons, dotList_cons, ih, mul_comm]

theorem dotList_right_zero : ∀ (y c : List ℝ),
    (∀ j, j < y.length → y.getD j 0 = 0) → dotList c y = 0 := by
  intro y
  induction y with
  | nil => intro c _; exact dotList_nil_right c
  | cons y₀ ys ih =>
      intro c h
      cases c with
      | nil => exact dotList_nil_left _
      | cons c₀ cs =>
          have hy0 : y₀ = 0 := by simpa using h 0 (by simp)
          rw [dotList_cons, ih cs (fun j hj => h (j + 1) (by simpa using hj)), hy0]
          ring

theorem dotList_div (l : ℝ) : ∀ (b y : List ℝ),
    dotList (b.map (fun x => x / l)) y = dotList b y / l := by
  intro b
  induction b with
  | nil => intro y; simp [dotList_nil_left]
  | cons b₀ bs ih =>
      intro y
      cases y with
      | nil => simp [dotList_nil_right]
      | cons y₀ ys =>
          simp only [List.map_cons]
          rw [dotList_cons, dotList_cons, ih, add_div, div_mul_eq_mul_div]

theorem dotList_sub_mul (vi : ℝ) : ∀ (t v y : List ℝ),
    t.length = v.length → v.length = y.length →
    dotList (List.zipWith (fun x vj => x - vi * vj) t v) y =
      dotList t y - vi * dotList v y := by
  intro t
  induction t with
  | nil =>
      intro v y ht _
      have : v = [] := List.length_eq_zero.mp ht.symm
      subst this
      simp [dotList_nil_left]
  | cons t₀ ts ih =>
      intro v y ht hv
      cases v with
      | nil => simp at ht
      | cons v₀ vs =>
          cases y with
          | nil => simp at hv
          | cons y₀ ys =>
              simp only [List.zipWith_cons_cons]
              rw [dotList_cons, dotList_cons, dotList_cons,
                ih vs ys (by simpa using ht) (by simpa using hv)]
              ring

theorem qform_nil_mat (x : List ℝ) : qform [] x = 0 := by
  cases x <;> rfl

theorem zipWith_mul_left_zero (g : List ℝ → ℝ) : ∀ (y : List ℝ) (rows : List (List ℝ)),
    (∀ j, j < y.length → y.getD j 0 = 0) →
    (List.zipWith (fun yi row => yi * g row) y rows).sum = 0 := by
  intro y
  induction y with
  | nil => intro rows _; rfl
  | cons y₀ ys ih =>
      intro rows h
      cases rows with
      | nil => rfl
      | cons r rs =>
          have hy0 : y₀ = 0 := by simpa using h 0 (by simp)
          simp only [List.zipWith_cons_cons, List.sum_cons]
          rw [ih rs (fun j hj => h (j + 1) (by simpa using hj)), hy0]
          ring

theorem qform_left_zero (A : List (List ℝ)) (y : List ℝ)
    (h : ∀ j, j < y.length → y.getD j 0 = 0) : qform A y = 0 :=
  zipWith_mul_left_zero (fun row => dotList row y) y A h

theorem zipWith_rows_split (x₀ : ℝ) (x : List ℝ) :
    ∀ (ys : List ℝ) (rows : List (List ℝ)), (∀ r ∈ rows, r ≠ []) →
      (List.zipWith (fun yi row => yi * dotList row (x₀ :: x)) ys rows).sum =
        x₀ * dotList ys (rows.map (fun r => r.headD 0)) +
          (List.zipWith (fun yi t => yi * dotList t x) ys
            (rows.map (fun r => r.tail))).sum := by
  intro ys
  induction ys with
  | nil => intro rows _; simp [dotList_nil_left]
  | cons y₀ ys ih =>
      intro rows hrows
      cases rows with
      | nil => simp [dotList_nil_right]
      | cons r rs =>
          obtain ⟨r₀, rt, rfl⟩ := List.exists_cons_of_ne_nil (hrows r (by simp))
          simp only [List.map_cons, List.zipWith_cons_cons, List.sum_cons,
            List.headD_cons, List.tail_cons]
          rw [dotList_cons, dotList_cons,
            ih rs (fun q hq => hrows q (List.mem_cons_of_mem _ hq))]
          ring

theorem qform_cons (a x₀ : ℝ) (c x : List ℝ) (rest : List (List ℝ))
    (hrows : ∀ r ∈ rest, r ≠ []) :
    qform ((a :: c) :: rest) (x₀ :: x) =
      a * x₀ ^ 2 + x₀ * dotList c x +
        x₀ * dotList x (rest.map (fun r => r.headD 0)) +
        qform (rest.map (fun r => r.tail)) x := by
  rw [qform, qform]
  simp only [List.zipWith_cons_cons, List.sum_cons]
  rw [dotList_cons, zipWith_rows_split x₀ x x rest hrows]
  ring

theorem schur_sum (v y : List ℝ) (hvy : v.length = y.length) :
    ∀ (rows : List (List ℝ)) (ys vs : List ℝ),
      ys.length = rows.length → vs.length = rows.length →
      (∀ r ∈ rows, r.tail.length = v.length) →
      (List.zipWith (fun yi row => yi * dotList row y) ys
          (List.zipWith (fun r vi => List.zipWith (fun x vj => x - vi * vj) r.tail v)
            rows vs)).sum =
        (List.zipWith (fun yi t => yi * dotList t y) ys
            (rows.map (fun r => r.tail))).sum -
          dotList ys vs * dotList v y := by
  intro rows
  induction rows with
  | nil =>
      intro ys vs hys hvs _
      have h1 : ys = [] := List.length_eq_zero.mp hys
      have h2 : vs = [] := List.length_eq_zero.mp hvs
      subst h1
      subst h2
      simp [dotList_nil_left]
  | cons r rs ih =>
      intro ys vs hys hvs hrows
      cases ys with
      | nil => simp at hys
      | cons y₀ ys' =>
          cases vs with
          | nil => simp at hvs
          | cons v₀ vs' =>
              simp only [List.map_cons, List.zipWith_cons_cons, List.sum_cons]
              rw [dotList_cons,
                dotList_sub_mul v₀ r.tail v y (hrows r (by simp)) hvy,
                ih ys' vs' (by simpa using hys) (by simpa using hvs)
                  (fun q hq => hrows q (List.mem_cons_of_mem _ hq))]
              ring

theorem qform_cholSchur (v : List ℝ) (rest : List (List ℝ)) (y : List ℝ)
    (hvy : v.length = y.length) (hyr : y.length = rest.length)
    (hvr : v.length = rest.length)
    (ht : ∀ r ∈ rest, r.tail.length = v.length) :
    qform (cholSchur v rest) y =
      qform (rest.map (fun r => r.tail)) y - dotList y v * dotList v y := by
  rw [qform, cholSchur, schur_sum v y hvy rest y v hyr hvr ht, qform]

/-! ### Symmetry is preserved by the Schur complement -/

theorem heads_of_schurRows (v₀ : ℝ) (v' : List ℝ) :
    ∀ (rows : List (List ℝ)) (vs : List ℝ), (∀ r ∈ rows, r ≠ []) →
      (List.zipWith (fun r vi => List.zipWith (fun x vj => x - vi * vj) r (v₀ :: v'))
          rows vs).map (fun r => r.headD 0) =
        List.zipWith (fun r vi => r.headD 0 - v₀ * vi) rows vs := by
  intro rows
  induction rows with
  | nil => intro vs _; simp
  | cons r rs ih =>
      intro vs hrows
      cases vs with
      | nil => simp
      | cons w ws =>
          obtain ⟨r₀, rt, rfl⟩ := List.exists_cons_of_ne_nil (hrows r (by simp))
          simp only [List.zipWith_cons_cons, List.map_cons, List.headD_cons]
          rw [ih ws (fun q hq => hrows q (List.mem_cons_of_mem _ hq))]
          rw [mul_comm v₀ w]

theorem tails_of_schurRows (v₀ : ℝ) (v' : List ℝ) :
    ∀ (rows : List (List ℝ)) (vs : List ℝ),
      (List.zipWith (fun r vi => List.zipWith (fun x vj => x - vi * vj) r (v₀ :: v'))
          rows vs).map (fun r => r.tail) =
        List.zipWith (fun r vi => List.zipWith (fun x vj => x - vi * vj) r.tail v')
          rows vs := by
  intro rows
  induction rows with
  | nil => intro vs; simp
  | cons r rs ih =>
      intro vs
      cases vs with
      | nil => simp
      | cons w ws =>
          simp only [List.zipWith_cons_cons, List.map_cons]
          rw [ih ws]
          cases r with
          | nil => simp
          | cons r₀ rt => simp

theorem mem_schurRows (v : List ℝ) :
    ∀ (rows : List (List ℝ)) (vs : List ℝ) (q : List ℝ),
      q ∈ List.zipWith (fun r vi => List.zipWith (fun x vj => x - vi * vj) r v) rows vs →
      ∃ r vi, r ∈ rows ∧ q = List.zipWith (fun x vj => x - vi * vj) r v := by
  intro rows
  induction rows with
  | nil => intro vs q h; simp at h
  | cons r rs ih =>
      intro vs q h
      cases vs with
      | nil => simp at h
      | cons w ws =>
          simp only [List.zipWith_cons_cons] at h
          rcases List.mem_cons.mp h with h | h
          · exact ⟨r, w, by simp, h⟩
          · obtain ⟨r', vi', hr', hq⟩ := ih ws q h
            exact ⟨r', vi', List.mem_cons_of_mem _ hr', hq⟩

theorem isSymmSquare_schurGen :
    ∀ (M : List (List ℝ)), IsSymmSquare M → ∀ v : List ℝ, v.length = M.length →
      IsSymmSquare
        (List.zipWith (fun r vi => List.zipWith (fun x vj => x - vi * vj) r v) M v) := by
  intro M hM
  induction hM with
  | nil =>
      intro v _
      simp
      exact IsSymmSquare.nil
  | cons a c rest hc hlen hrows hminor ih =>
      intro v hv
      cases v with
      | nil => simp at hv
      | cons v₀ v' =>
          have hv' : v'.length = rest.length := by simpa using hv
          have hne : ∀ r ∈ rest, r ≠ [] := by
            intro r hr
            have := hrows r hr
            intro hnil
            rw [hnil] at this
            simp at this
          simp only [List.zipWith_cons_cons]
          refine IsSymmSquare.cons (a - v₀ * v₀)
            (List.zipWith (fun x vj => x - v₀ * vj) c v')
            (List.zipWith (fun r vi => List.zipWith (fun x vj => x - vi * vj) r (v₀ :: v'))
              rest v') ?_ ?_ ?_ ?_
          · rw [heads_of_schurRows v₀ v' rest v' hne, hc, List.zipWith_map_left]
          · simp only [List.length_zipWith]
            omega
          · intro q hq
            obtain ⟨r, vi, hr, rfl⟩ := mem_schurRows (v₀ :: v') rest v' q hq
            have hrl := hrows r hr
            simp only [List.length_zipWith, List.length_cons, hrl]
            omega
          · rw [tails_of_schurRows v₀ v' rest v']
            have heq :
                List.zipWith (fun r vi => List.zipWith (fun x vj => x - vi * vj) r.tail v')
                  rest v' =
                List.zipWith (fun r vi => List.zipWith (fun x vj => x - vi * vj) r v')
                  (rest.map (fun r => r.tail)) v' := by
              rw [List.zipWith_map_left]
            rw [heq]
            exact ih v' (by simpa using hv')

theorem cholSchur_eq_schurGen (v : List ℝ) (rest : List (List ℝ)) :
    cholSchur v rest =
      List.zipWith (fun r vi => List.zipWith (fun x vj => x - vi * vj) r v)
        (rest.map (fun r => r.tail)) v := by
  rw [cholSchur, List.zipWith_map_left]

/-! ### A successful Cholesky factorisation certifies positive definiteness -/

theorem cholList_some_posDef :
    ∀ (n : ℕ) (A L : List (List ℝ)), A.length ≤ n →
      IsSymmSquare A → cholList A = some L → PosDefList A := by
  intro n
  induction n with
  | zero =>
      intro A L hlen _ _
      have : A = [] := List.length_eq_zero.mp (Nat.le_zero.mp hlen)
      subst this
      intro x hx hnz
      obtain ⟨i, hi, _⟩ := hnz
      rw [List.length_eq_zero.mp hx] at hi
      simp at hi
  | succ n ih =>
      intro A L hlen hsym hchol
      cases hsym with
      | nil =>
          intro x hx hnz
          obtain ⟨i, hi, _⟩ := hnz
          rw [List.length_eq_zero.mp hx] at hi
          simp at hi
      | cons a c rest hc hlenc hrows hminor =>
          rw [cholList] at hchol
          simp only [List.headD_cons] at hchol
          by_cases ha : a ≤ 0
          · rw [if_pos ha] at hchol
            exact absurd hchol (by simp)
          · rw [if_neg ha] at hchol
            push_neg at ha
            set v := ((rest.map (fun r => r.headD 0)).map
              (fun x => x / Real.sqrt a)) with hvdef
            have hveqc : v = c.map (fun x => x / Real.sqrt a) := by
              rw [hvdef, hc]
            have hvlen : v.length = rest.length := by
              rw [hvdef]
              simp
            rcases hschur : cholList (cholSchur v rest) with _ | L'
            · rw [hschur] at hchol
              exact absurd hchol (by simp)
            · have hschurSymm : IsSymmSquare (cholSchur v rest) := by
                rw [cholSchur_eq_schurGen]
                exact isSymmSquare_schurGen (rest.map (fun r => r.tail)) hminor v
                  (by simpa using hvlen)
              have hschurLen : (cholSchur v rest).length = rest.length := by
                rw [cholSchur, List.length_zipWith, hvlen]
                omega
              have hrestn : rest.length ≤ n := by
                have : rest.length + 1 ≤ n + 1 := by simpa using hlen
                omega
              have hpdSchur : PosDefList (cholSchur v rest) :=
                ih (cholSchur v rest) L' (by rw [hschurLen]; exact hrestn)
                  hschurSymm hschur
              intro x hx hnz
              have hxlen : x.length = rest.length + 1 := by simpa using hx
              cases x with
              | nil => simp at hxlen
              | cons x₀ y =>
                  have hylen : y.length = rest.length := by simpa using hxlen
                  have hrne : ∀ r ∈ rest, r ≠ [] := by
                    intro r hr hnil
                    have := hrows r hr
                    rw [hnil] at this
                    simp at this
                  have htail : ∀ r ∈ rest, r.tail.length = v.length := by
                    intro r hr
                    have := hrows r hr
                    rw [List.length_tail, this, hvlen]
                    omega
                  have hs : (0 : ℝ) < Real.sqrt a := Real.sqrt_pos.mpr ha
                  have hs2 : Real.sqrt a ^ 2 = a := Real.sq_sqrt ha.le
                  set t := dotList c y with htdef
                  have hvy : dotList v y = t / Real.sqrt a := by
                    rw [hveqc, dotList_div]
                  have hexp : qform ((a :: c) :: rest) (x₀ :: y) =
                      (Real.sqrt a * x₀ + t / Real.sqrt a) ^ 2 +
                        qform (cholSchur v rest) y := by
                    rw [qform_cons a x₀ c y rest hrne]
                    rw [qform_cholSchur v rest y (by omega) (by omega) (by omega) htail]
                    rw [← hc, dotList_comm y c, ← htdef, dotList_comm y v, hvy]
                    have hst : Real.sqrt a * (t / Real.sqrt a) = t := by
                      field_simp
                    have h1 : (Real.sqrt a * x₀ + t / Real.sqrt a) ^ 2
                        = a * x₀ ^ 2 + 2 * x₀ * t
                          + (t / Real.sqrt a) * (t / Real.sqrt a) := by
                      have hexpand : (Real.sqrt a * x₀ + t / Real.sqrt a) ^ 2
                          = (Real.sqrt a * Real.sqrt a) * x₀ ^ 2
                            + 2 * x₀ * (Real.sqrt a * (t / Real.sqrt a))
                            + (t / Real.sqrt a) * (t / Real.sqrt a) := by ring
                      rw [hexpand, hst, Real.mul_self_sqrt ha.le]
                    rw [h1]
                    ring
                  rw [hexp]
                  by_cases hy' : ∃ j, j < y.length ∧ y.getD j 0 ≠ 0
                  · have hq := hpdSchur y (by omega) hy'
                    nlinarith [sq_nonneg (Real.sqrt a * x₀ + t / Real.sqrt a)]
                  · push_neg at hy'
                    have ht0 : t = 0 := by
                      rw [htdef]
                      exact dotList_right_zero y c hy'
                    have hq0 : qform (cholSchur v rest) y = 0 :=
                      qform_left_zero _ y hy'
                    have hx₀ : x₀ ≠ 0 := by
                      obtain ⟨i, hi, hne0⟩ := hnz
                      cases i with
                      | zero => simpa using hne0
                      | succ i =>
                          exact absurd (hy' i (by simpa using hi)) (by simpa using hne0)
                    rw [ht0, hq0]
                    have : Real.sqrt a * x₀ + 0 / Real.sqrt a = Real.sqrt a * x₀ := by
                      ring
                    rw [this]
                    have hx2 : 0 < x₀ ^ 2 :=
                      lt_of_le_of_ne (sq_nonneg x₀) (Ne.symm (pow_ne_zero 2 hx₀))
                    nlinarith [hs2, hs]

/-! ### The proposal covariance is symmetric -/

theorem map_range_succ (n : ℕ) {α : Type} (f : ℕ → α) :
    (List.range (n + 1)).map f = f 0 :: (List.range n).map (fun j => f (j + 1)) := by
  rw [List.range_succ_eq_map]
  simp [List.map_map, Function.comp_def]

theorem zipWith_congr_fun {α β : Type} (f g : α → β → ℝ) (h : ∀ a b, f a b = g a b) :
    ∀ (l : List α) (m : List β), List.zipWith f l m = List.zipWith g l m := by
  intro l
  induction l with
  | nil => intro m; rfl
  | cons a l ih =>
      intro m
      cases m with
      | nil => rfl
      | cons b m => simp [h, ih]

theorem matOfFn_symm : ∀ (n : ℕ) (h : ℕ → ℕ → ℝ), (∀ i j, h i j = h j i) →
    IsSymmSquare (matOfFn n h) := by
  intro n
  induction n with
  | zero =>
      intro h _
      rw [matOfFn]
      simp only [List.range_zero, List.map_nil]
      exact IsSymmSquare.nil
  | succ n ih =>
      intro h hsymm
      rw [matOfFn, map_range_succ n (fun i => (List.range (n + 1)).map (h i)),
        map_range_succ n (h 0)]
      refine IsSymmSquare.cons (h 0 0) ((List.range n).map (fun j => h 0 (j + 1)))
        ((List.range n).map (fun i => (List.range (n + 1)).map (h (i + 1)))) ?_ ?_ ?_ ?_
      · rw [List.map_map]
        apply List.map_congr_left
        intro i _
        simp only [Function.comp]
        rw [map_range_succ n (h (i + 1))]
        simp [hsymm 0 (i + 1)]
      · simp
      · intro r hr
        obtain ⟨i, _, rfl⟩ := List.mem_map.mp hr
        simp
      · rw [List.map_map]
        have heq : ((fun r => List.tail r) ∘ fun i => (List.range (n + 1)).map (h (i + 1)))
            = fun i => (List.range n).map (fun j => h (i + 1) (j + 1)) := by
          funext i
          rw [Function.comp]
          rw [map_range_succ n (h (i + 1))]
          simp
        rw [heq]
        exact ih (fun i j => h (i + 1) (j + 1)) (fun i j => hsymm (i + 1) (j + 1))

theorem scaledProposalCovariance_symm (samples : List (List ℝ)) (weights : List ℝ)
    (scaleFactor : ℝ) : IsSymmSquare (scaledProposalCovariance samples weights scaleFactor) := by
  rw [scaledProposalCovariance]
  apply matOfFn_symm
  intro i j
  rw [scaledCovEntry, scaledCovEntry]
  simp only []
  congr 1
  congr 1
  exact congrArg List.sum (zipWith_congr_fun _ _ (fun w row => by ring) weights samples)

/-! ### The stage engine -/

/-- The fatal error conditions of the module, mirroring the Python
exceptions: `ValueError(_generate_error_message(size))` for a non-scalar
evaluator output, `RuntimeError('Cholesky decomposition failed: ...')`,
numpy's ambiguous-truth-value `ValueError` (raised by `if accept:` when the
log-target-density is not a size-1 array), and `KeyError` for a missing
stage key. -/
inductive TMCMCError where
  | invalidEvaluatorOutput (size : ℕ)
  | choleskyFailure
  | ambiguousTruthValue
  | keyError

/-- `TMCMC._generate_error_message(size)`. -/
def generateErrorMessage (size : ℕ) : String :=
  s!"Expected a single value, but got {size} values."

/-- The message text of each fatal error (for `choleskyFailure` the source
appends the underlying numpy message after the colon). -/
def errorMessage : TMCMCError → String
  | .invalidEvaluatorOutput size => generateErrorMessage size
  | .choleskyFailure => "Cholesky decomposition failed"
  | .ambiguousTruthValue =>
      "The truth value of an array with more than one element is ambiguous"
  | .keyError => "KeyError"

/-- Constructor configuration stored on a `TMCMC` instance by `__init__`.
Note that `thresholdCov` is stored but `_run_one_stage` never passes it to
`_increment_beta`. -/
structure TMCMCConfig where
  thresholdCov : ℝ
  numSteps : ℕ
  thinningFactor : ℕ
  adaptFrequency : ℕ

/-- The random draws one stage consumes, indexed by consumption order:
`choiceDraws k` abstracts the valid index returned by
`rng.choice(num_samples, p=weights)` at outer iteration k (reduced mod the
population size to stay in range), `normalDraws s` the d-dimensional
standard-normal draw of inner step s, and `uniformDraws s` the uniform
variate of the accept test of inner step s.  The distribution of the draws
is outside the embedding; the algebra of the stage is not. -/
structure RNG where
  choiceDraws : ℕ → ℕ
  normalDraws : ℕ → List ℝ
  uniformDraws : ℕ → ℝ

/-- The mutable state threaded through the rejuvenation loop of
`_run_one_stage`. -/
structure StageState where
  currentSamples : List (List ℝ)
  currentLogLikelihoods : List ℝ
  currentLogTargetDensityValues : List ℝ
  weights : List ℝ
  scaleFactor : ℝ
  cholCov : List (List ℝ)
  numAccepts : ℕ
  nAdapt : ℕ
  stepCount : ℕ
  numSteps : ℕ
  newSamples : List (List ℝ)
  newLogLikelihoods : List ℝ
  newLogTargetDensityValues : List ℝ

/-- Matrix–vector product `L @ z` on a list-of-rows matrix. -/
noncomputable def matVec (A : List (List ℝ)) (z : List ℝ) : List ℝ :=
  A.map (fun row => dotList row z)

/-- One Metropolis-Hastings step of the inner loop of `_run_one_stage`:
bump the step counter, adapt the proposal scale every `adapt_frequency`
steps (rebuilding the Cholesky factor from the CURRENT samples, a fatal
error if it fails), propose `current[index] + L z`, evaluate the two
approximations, and on acceptance overwrite the current row, enforce the
scalar contract of both evaluator outputs, and recompute the weights from
the current log-likelihoods past burn-in. -/
noncomputable def mcmcStep (cfg : TMCMCConfig) (rng : RNG)
    (logLikelihoodFunction : List ℝ → List ℝ)
    (logTargetDensityFunction : List ℝ → List ℝ → List ℝ)
    (targetAcceptanceRate betaIncrement : ℝ) (burnInSteps k index : ℕ)
    (s : StageState) : Except TMCMCError StageState :=
  let stepCount := s.stepCount + 1
  let adapt : Except TMCMCError (ℕ × ℕ × ℝ × List (List ℝ)) :=
    if stepCount % cfg.adaptFrequency = 0 then
      let acceptanceRate := (s.numAccepts : ℝ) / (cfg.adaptFrequency : ℝ)
      let nAdapt := s.nAdapt + 1
      let ca := (acceptanceRate - targetAcceptanceRate) / Real.sqrt (nAdapt : ℝ)
      let scaleFactor := s.scaleFactor * Real.exp ca
      match cholList (scaledProposalCovariance s.currentSamples s.weights scaleFactor) with
      | none => .error .choleskyFailure
      | some L => .ok (0, nAdapt, scaleFactor, L)
    else .ok (s.numAccepts, s.nAdapt, s.scaleFactor, s.cholCov)
  match adapt with
  | .error e => .error e
  | .ok (numAccepts, nAdapt, scaleFactor, cholCov) =>
      let z := rng.normalDraws s.stepCount
      let proposedState :=
        List.zipWith (fun a b => a + b) (s.currentSamples.getD index []) (matVec cholCov z)
      let logLikelihoodAtProposedState := logLikelihoodFunction proposedState
      let logTargetDensityAtProposedState :=
        logTargetDensityFunction proposedState logLikelihoodAtProposedState
      if logTargetDensityAtProposedState.length ≠ 1 then .error .ambiguousTruthValue
      else
        let logHastingsRatio :=
          logTargetDensityAtProposedState.headD 0 -
            s.currentLogTargetDensityValues.getD index 0
        let u := rng.uniformDraws s.stepCount
        if Real.log u ≤ logHastingsRatio then
          let currentSamples := s.currentSamples.set index proposedState
          if logLikelihoodAtProposedState.length ≠ 1 then
            .error (.invalidEvaluatorOutput logLikelihoodAtProposedState.length)
          else
            let currentLogLikelihoods :=
              s.currentLogLikelihoods.set index (logLikelihoodAtProposedState.headD 0)
            if logTargetDensityAtProposedState.length ≠ 1 then
              .error (.invalidEvaluatorOutput logTargetDensityAtProposedState.length)
            else
              let currentLogTargetDensityValues :=
                s.currentLogTargetDensityValues.set index
                  (logTargetDensityAtProposedState.headD 0)
              let weights :=
                if burnInSteps ≤ k then
                  calculateWeights betaIncrement currentLogLikelihoods
                else s.weights
              .ok { s with
                currentSamples := currentSamples,
                currentLogLikelihoods := currentLogLikelihoods,
                currentLogTargetDensityValues := currentLogTargetDensityValues,
                weights := weights,
                scaleFactor := scaleFactor,
                cholCov := cholCov,
                numAccepts := numAccepts + 1,
                nAdapt := nAdapt,
                stepCount := stepCount }
        else
          .ok { s with
            scaleFactor := scaleFactor,
            cholCov := cholCov,
            numAccepts := numAccepts,
            nAdapt := nAdapt,
            stepCount := stepCount }

/-- Run the inner MH loop `num_steps` times, stopping at the first error. -/
noncomputable def iterateSteps (f : StageState → Except TMCMCError StageState) :
    ℕ → StageState → Except TMCMCError StageState
  | 0, s => .ok s
  | n + 1, s =>
      match f s with
      | .error e => .error e
      | .ok s' => iterateSteps f n s'

/-- One iteration of the outer `for k in range(burn_in_steps + num_samples)`
loop of `_run_one_stage`: draw a seed index from the resampling
distribution, switch to thinned step counts past burn-in when the new beta
is 1 or thinning is requested, run the inner MH loop, and past burn-in
emit the current row into output row `k - burn_in_steps`. -/
noncomputable def stageIteration (cfg : TMCMCConfig) (rng : RNG)
    (llf : List ℝ → List ℝ) (tdf : List ℝ → List ℝ → List ℝ)
    (targetAcceptanceRate betaIncrement newBeta : ℝ) (doThinning : Bool)
    (burnInSteps numSamples k : ℕ) (s : StageState) :
    Except TMCMCError StageState :=
  let index := rng.choiceDraws k % numSamples
  let numSteps :=
    if burnInSteps ≤ k ∧ (newBeta = 1 ∨ doThinning = true) then
      cfg.numSteps * cfg.thinningFactor
    else s.numSteps
  match iterateSteps
      (mcmcStep cfg rng llf tdf targetAcceptanceRate betaIncrement burnInSteps k index)
      numSteps { s with numSteps := numSteps } with
  | .error e => .error e
  | .ok s' =>
      if burnInSteps ≤ k then
        .ok { s' with
          newSamples :=
            s'.newSamples.set (k - burnInSteps) (s'.currentSamples.getD index []),
          newLogLikelihoods :=
            s'.newLogLikelihoods.set (k - burnInSteps)
              (s'.currentLogLikelihoods.getD index 0),
          newLogTargetDensityValues :=
            s'.newLogTargetDensityValues.set (k - burnInSteps)
              (s'.currentLogTargetDensityValues.getD index 0) }
      else .ok s'

/-- Fold the outer loop over the listed k values, stopping at the first
error. -/
noncomputable def iterateStage (g : ℕ → StageState → Except TMCMCError StageState) :
    List ℕ → StageState → Except TMCMCError StageState
  | [], s => .ok s
  | k :: ks, s =>
      match g k s with
      | .error e => .error e
      | .ok s' => iterateStage g ks s'

/-- `TMCMC._run_one_stage(...)`.  The temperature step calls
`_increment_beta(log_likelihoods, beta)` — with the DEFAULT threshold 1,
not the configured `cfg.thresholdCov`.  The stage log-evidence and weights
are computed at the resulting increment; the scaled weighted covariance is
factored (when the sample dimension is below 2, `np.cov` collapses to a
0-d array and `np.linalg.cholesky` raises `LinAlgError`, hence the
dimension guard; a failed factorisation is likewise fatal); then the
resample/rejuvenate loop produces the output population. -/
noncomputable def runOneStage (cfg : TMCMCConfig)
    (samples : List (List ℝ)) (logLikelihoods logTargetDensityValues : List ℝ)
    (beta : ℝ) (rng : RNG) (llf : List ℝ → List ℝ) (tdf : List ℝ → List ℝ → List ℝ)
    (scaleFactor targetAcceptanceRate : ℝ) (doThinning : Bool) (burnInSteps : ℕ) :
    Except TMCMCError (List (List ℝ) × List ℝ × List ℝ × ℝ × ℝ) :=
  let newBeta := incrementBeta logLikelihoods beta 1
  let logEvidence := calculateLogEvidence (newBeta - beta) logLikelihoods
  let weights := calculateWeights (newBeta - beta) logLikelihoods
  let proposalCovariance := scaledProposalCovariance samples weights scaleFactor
  if proposalCovariance.length < 2 then .error .choleskyFailure
  else
    match cholList proposalCovariance with
    | none => .error .choleskyFailure
    | some cholCov =>
        let numSamples := samples.length
        let init : StageState :=
          { currentSamples := samples,
            currentLogLikelihoods := logLikelihoods,
            currentLogTargetDensityValues := logTargetDensityValues,
            weights := weights,
            scaleFactor := scaleFactor,
            cholCov := cholCov,
            numAccepts := 0,
            nAdapt := 1,
            stepCount := 0,
            numSteps := cfg.numSteps,
            newSamples := samples.map (fun row => row.map (fun _ => 0)),
            newLogLikelihoods := logLikelihoods.map (fun _ => 0),
            newLogTargetDensityValues := logTargetDensityValues.map (fun _ => 0) }
        match iterateStage
            (stageIteration cfg rng llf tdf targetAcceptanceRate (newBeta - beta) newBeta
              doThinning burnInSteps numSamples)
            (List.range (burnInSteps + numSamples)) init with
        | .error e => .error e
        | .ok final =>
            .ok (final.newSamples, final.newLogLikelihoods,
              final.newLogTargetDensityValues, newBeta, logEvidence)

/-! ### Concrete instances and evaluation lemmas -/

theorem covObjective_replicate (n : ℕ) (c τ d : ℝ) (hn : 1 ≤ n) :
    covObjective (List.replicate n c) τ d = -τ := by
  rw [covObjective, calculateWeights_replicate d c n hn, weightsCov_replicate n _ hn]
  ring

theorem incrementBeta_replicate (n : ℕ) (c beta τ : ℝ) (hn : 1 ≤ n) :
    incrementBeta (List.replicate n c) beta τ = 1 := by
  rw [incrementBeta, if_pos (by rw [covObjective_replicate n c τ 0 hn,
    covObjective_replicate n c τ (1 - beta) hn])]

noncomputable def cfg0 : TMCMCConfig := ⟨1 / 2, 0, 10, 50⟩

noncomputable def cfg1 : TMCMCConfig := ⟨1 / 2, 1, 10, 50⟩

noncomputable def rng0 : RNG := ⟨fun _ => 0, fun _ => [0, 0], fun _ => Real.exp (-1)⟩

noncomputable def llf0 : List ℝ → List ℝ := fun _ => [0]

noncomputable def tdf0 : List ℝ → List ℝ → List ℝ := fun _ _ => [0]

theorem incrementBeta_zeros3 : incrementBeta [(0 : ℝ), 0, 0] 0 1 = 1 := by
  have h : [(0 : ℝ), 0, 0] = List.replicate 3 0 := rfl
  rw [h]
  exact incrementBeta_replicate 3 0 0 1 (by norm_num)

theorem calculateWeights_one_zeros3 :
    calculateWeights 1 [(0 : ℝ), 0, 0] = [1 / 3, 1 / 3, 1 / 3] := by
  have h : [(0 : ℝ), 0, 0] = List.replicate 3 0 := rfl
  rw [h, calculateWeights_replicate 1 0 3 (by norm_num)]
  norm_num [List.replicate]

theorem cov3_eq :
    scaledProposalCovariance [[(0 : ℝ), 0], [1, 0], [0, 1]] [1 / 3, 1 / 3, 1 / 3] 1 =
      [[1 / 3, -(1 / 6)], [-(1 / 6), 1 / 3]] := by
  rw [scaledProposalCovariance]
  norm_num [matOfFn, scaledCovEntry, List.range_succ]

theorem chol_quarter : cholList [[(1 : ℝ) / 4]] = some [[Real.sqrt (1 / 4)]] := by
  rw [cholList]
  rw [if_neg (by norm_num)]
  simp only [List.headD_cons, List.map_nil, cholSchur, List.zipWith_nil_left,
    List.zipWith_nil_right, List.length_nil, List.replicate_zero]
  rw [show cholList ([] : List (List ℝ)) = some [] from by rw [cholList]]

theorem chol3_eq :
    cholList [[(1 : ℝ) / 3, -(1 / 6)], [-(1 / 6), 1 / 3]] =
      some [[Real.sqrt (1 / 3), 0],
        [-(1 / 6) / Real.sqrt (1 / 3), Real.sqrt (1 / 4)]] := by
  have hv2 : -(1 / 6) / Real.sqrt ((1 : ℝ) / 3) * (-(1 / 6) / Real.sqrt ((1 : ℝ) / 3))
      = 1 / 12 := by
    rw [div_mul_div_comm, Real.mul_self_sqrt (by norm_num)]
    norm_num
  have hschur : cholSchur [-(1 / 6) / Real.sqrt ((1 : ℝ) / 3)]
      [[-(1 / 6), (1 : ℝ) / 3]] = [[(1 : ℝ) / 4]] := by
    rw [cholSchur]
    simp only [List.zipWith_cons_cons, List.zipWith_nil_right, List.tail_cons,
      List.zipWith_nil_left]
    rw [hv2]
    norm_num
  rw [cholList]
  rw [if_neg (by norm_num)]
  simp only [List.headD_cons, List.map_cons, List.map_nil, List.length_cons,
    List.length_nil]
  rw [hschur, chol_quarter]
  simp

theorem iterStage_cons_ok (g : ℕ → StageState → Except TMCMCError StageState)
    (k : ℕ) (ks : List ℕ) (s s' : StageState) (h : g k s = .ok s') :
    iterateStage g (k :: ks) s = iterateStage g ks s' := by
  rw [iterateStage, h]

theorem iterStage_cons_err (g : ℕ → StageState → Except TMCMCError StageState)
    (k : ℕ) (ks : List ℕ) (s : StageState) (e : TMCMCError) (h : g k s = .error e) :
    iterateStage g (k :: ks) s = .error e := by
  rw [iterateStage, h]

theorem iterSteps_succ_err (f : StageState → Except TMCMCError StageState)
    (n : ℕ) (s : StageState) (e : TMCMCError) (h : f s = .error e) :
    iterateSteps f (n + 1) s = .error e := by
  rw [iterateSteps, h]

/-- Under `cfg0` (zero MH steps per row) an outer iteration only draws the
seed index 0 and emits the corresponding current row. -/
theorem stageIter0 (k : ℕ) (s : StageState) :
    stageIteration cfg0 rng0 llf0 tdf0 (3 / 10) 1 1 false 0 3 k s =
      .ok { s with
        numSteps := 0,
        newSamples := s.newSamples.set k (s.currentSamples.getD 0 []),
        newLogLikelihoods := s.newLogLikelihoods.set k (s.currentLogLikelihoods.getD 0 0),
        newLogTargetDensityValues :=
          s.newLogTargetDensityValues.set k (s.currentLogTargetDensityValues.getD 0 0) } := by
  rw [stageIteration]
  simp [rng0, cfg0, iterateSteps]

/-- Full evaluation of one stage at a concrete spanning population with
zero MH steps per output row. -/
theorem stage3_ok :
    runOneStage cfg0 [[(0 : ℝ), 0], [1, 0], [0, 1]] [0, 0, 0] [0, 0, 0] 0 rng0 llf0 tdf0
        1 (3 / 10) false 0 =
      .ok ([[(0 : ℝ), 0], [0, 0], [0, 0]], [0, 0, 0], [0, 0, 0], 1,
        calculateLogEvidence 1 [0, 0, 0]) := by
  simp only [runOneStage, incrementBeta_zeros3, sub_zero, calculateWeights_one_zeros3,
    cov3_eq, chol3_eq, List.length_cons, List.length_nil]
  rw [if_neg (by norm_num)]
  rw [show (0 + 3 : ℕ) = 3 from rfl, show List.range 3 = [0, 1, 2] from by decide]
  rw [iterStage_cons_ok _ _ _ _ _ (stageIter0 0 _),
    iterStage_cons_ok _ _ _ _ _ (stageIter0 1 _),
    iterStage_cons_ok _ _ _ _ _ (stageIter0 2 _), iterateStage]
  simp [List.set]

theorem covN1_eq (sf : ℝ) :
    scaledProposalCovariance [[(0 : ℝ), 0]] [1] sf = [[0, 0], [0, 0]] := by
  rw [scaledProposalCovariance]
  norm_num [matOfFn, scaledCovEntry, List.range_succ]

theorem chol_zero2 : cholList [[(0 : ℝ), 0], [0, 0]] = none := by
  rw [cholList]
  rw [if_pos (by norm_num)]

theorem incrementBeta_zero1 : incrementBeta [(0 : ℝ)] 0 1 = 1 := by
  have h : [(0 : ℝ)] = List.replicate 1 0 := rfl
  rw [h]
  exact incrementBeta_replicate 1 0 0 1 (by norm_num)

theorem calculateWeights_one_zero1 : calculateWeights 1 [(0 : ℝ)] = [1] := by
  have h : [(0 : ℝ)] = List.replicate 1 0 := rfl
  rw [h, calculateWeights_replicate 1 0 1 (by norm_num)]
  norm_num [List.replicate]

/-- With a single sample the aweights normalisation degenerates and the
stage covariance is the zero matrix, so the stage fails at entry with the
Cholesky error, for any scale factor and target acceptance rate. -/
theorem stage_N1_fails (sf tar : ℝ) :
    runOneStage cfg0 [[(0 : ℝ), 0]] [0] [0] 0 rng0 llf0 tdf0 sf tar false 0 =
      .error .choleskyFailure := by
  simp only [runOneStage, incrementBeta_zero1, sub_zero, calculateWeights_one_zero1,
    covN1_eq, chol_zero2, List.length_cons, List.length_nil]
  rw [if_neg (by norm_num)]

/-- The beta and log-evidence components of every successful stage are the
ones computed up front, before the rejuvenation loop. -/
theorem runOneStage_ok_parts (cfg : TMCMCConfig) (samples : List (List ℝ))
    (logLikelihoods logTargetDensityValues : List ℝ) (beta : ℝ) (rng : RNG)
    (llf : List ℝ → List ℝ) (tdf : List ℝ → List ℝ → List ℝ)
    (scaleFactor targetAcceptanceRate : ℝ) (doThinning : Bool) (burnInSteps : ℕ)
    (r : List (List ℝ) × List ℝ × List ℝ × ℝ × ℝ)
    (h : runOneStage cfg samples logLikelihoods logTargetDensityValues beta rng llf tdf
        scaleFactor targetAcceptanceRate doThinning burnInSteps = .ok r) :
    r.2.2.2.1 = incrementBeta logLikelihoods beta 1 ∧
      r.2.2.2.2 = calculateLogEvidence (incrementBeta logLikelihoods beta 1 - beta)
        logLikelihoods := by
  simp only [runOneStage] at h
  split at h
  · simp at h
  · split at h
    · simp at h
    · split at h
      · simp at h
      · rw [Except.ok.injEq] at h
        rw [← h]
        exact ⟨rfl, rfl⟩

/-- Claim C1 (code bug): the temperature step inside `_run_one_stage`
targets the default threshold 1 regardless of the `threshold_cov` stored on
the instance — the new beta of every successful stage equals
`_increment_beta(log_likelihoods, beta)` at threshold 1 — and at
log-likelihoods [0, 2] with beta 0 the configured threshold 1/2 would
produce a strictly different (smaller) new beta. -/
theorem stage_ignores_configured_threshold :
    (∀ (cfg : TMCMCConfig) (samples : List (List ℝ))
        (logLikelihoods logTargetDensityValues : List ℝ) (beta : ℝ) (rng : RNG)
        (llf : List ℝ → List ℝ) (tdf : List ℝ → List ℝ → List ℝ)
        (scaleFactor targetAcceptanceRate : ℝ) (doThinning : Bool) (burnInSteps : ℕ)
        (r : List (List ℝ) × List ℝ × List ℝ × ℝ × ℝ),
        runOneStage cfg samples logLikelihoods logTargetDensityValues beta rng llf tdf
            scaleFactor targetAcceptanceRate doThinning burnInSteps = .ok r →
        r.2.2.2.1 = incrementBeta logLikelihoods beta 1) ∧
      incrementBeta [0, 2] 0 1 = 1 ∧ incrementBeta [0, 2] 0 (1 / 2) < 1 :=
  ⟨fun cfg samples lls ltds beta rng llf tdf sf tar dt bi r h =>
      (runOneStage_ok_parts cfg samples lls ltds beta rng llf tdf sf tar dt bi r h).1,
    incrementBeta_two_default, incrementBeta_two_half_lt_one⟩

theorem stage_ignores_configured_threshold_witness :
    (∃ r, runOneStage cfg0 [[(0 : ℝ), 0], [1, 0], [0, 1]] [0, 0, 0] [0, 0, 0] 0 rng0
        llf0 tdf0 1 (3 / 10) false 0 = .ok r ∧
        r.2.2.2.1 = incrementBeta [0, 0, 0] 0 1) ∧
      incrementBeta [0, 2] 0 1 = 1 ∧ incrementBeta [0, 2] 0 (1 / 2) < 1 :=
  ⟨⟨_, stage3_ok, stage_ignores_configured_threshold.1 cfg0 _ _ _ 0 rng0 llf0 tdf0
      1 (3 / 10) false 0 _ stage3_ok⟩,
    stage_ignores_configured_threshold.2.1, stage_ignores_configured_threshold.2.2⟩

/-- Claim C7: whenever the scaled weighted sample covariance at stage entry
is not positive definite, the stage aborts with the fatal Cholesky error
instead of producing output samples. -/
theorem stage_nonPD_cholesky_error (cfg : TMCMCConfig) (samples : List (List ℝ))
    (logLikelihoods logTargetDensityValues : List ℝ) (beta : ℝ) (rng : RNG)
    (llf : List ℝ → List ℝ) (tdf : List ℝ → List ℝ → List ℝ)
    (scaleFactor targetAcceptanceRate : ℝ) (doThinning : Bool) (burnInSteps : ℕ)
    (hnpd : ¬ PosDefList (scaledProposalCovariance samples
        (calculateWeights (incrementBeta logLikelihoods beta 1 - beta) logLikelihoods)
        scaleFactor)) :
    runOneStage cfg samples logLikelihoods logTargetDensityValues beta rng llf tdf
        scaleFactor targetAcceptanceRate doThinning burnInSteps =
      .error .choleskyFailure := by
  simp only [runOneStage]
  split
  · rfl
  · split
    · rfl
    · rename_i L hL
      exact absurd (cholList_some_posDef
        (scaledProposalCovariance samples
          (calculateWeights (incrementBeta logLikelihoods beta 1 - beta) logLikelihoods)
          scaleFactor).length _ L (le_refl _)
        (scaledProposalCovariance_symm _ _ _) hL) hnpd

theorem stage_nonPD_cholesky_error_witness :
    ¬ PosDefList (scaledProposalCovariance [[(0 : ℝ), 0]]
        (calculateWeights (incrementBeta [0] 0 1 - 0) [0]) 1) ∧
      runOneStage cfg0 [[(0 : ℝ), 0]] [0] [0] 0 rng0 llf0 tdf0 1 (3 / 10) false 0 =
        .error .choleskyFailure := by
  have hw : calculateWeights (incrementBeta [(0 : ℝ)] 0 1 - 0) [0] = [1] := by
    rw [incrementBeta_zero1, sub_zero, calculateWeights_one_zero1]
  have hnpd : ¬ PosDefList (scaledProposalCovariance [[(0 : ℝ), 0]]
      (calculateWeights (incrementBeta [0] 0 1 - 0) [0]) 1) := by
    rw [hw, covN1_eq]
    intro hpd
    have h := hpd [1, 0] (by simp) ⟨0, by norm_num, by norm_num⟩
    norm_num [qform, dotList] at h
  exact ⟨hnpd, stage_nonPD_cholesky_error cfg0 _ _ _ 0 rng0 llf0 tdf0 1 (3 / 10)
    false 0 hnpd⟩

/-- Claim C9: the stage log-evidence increment is
`logsumexp(beta_increment * log_likelihoods) - log N`, both as a formula
about the weight kernel and as the component every successful stage
returns. -/
theorem stage_log_evidence_formula :
    (∀ (betaIncrement : ℝ) (logLikelihoods : List ℝ), logLikelihoods ≠ [] →
        calculateLogEvidence betaIncrement logLikelihoods =
          Real.log ((logLikelihoods.map (fun x => Real.exp (betaIncrement * x))).sum) -
            Real.log (logLikelihoods.length : ℝ)) ∧
      (∀ (cfg : TMCMCConfig) (samples : List (List ℝ))
        (logLikelihoods logTargetDensityValues : List ℝ) (beta : ℝ) (rng : RNG)
        (llf : List ℝ → List ℝ) (tdf : List ℝ → List ℝ → List ℝ)
        (scaleFactor targetAcceptanceRate : ℝ) (doThinning : Bool) (burnInSteps : ℕ)
        (r : List (List ℝ) × List ℝ × List ℝ × ℝ × ℝ),
        runOneStage cfg samples logLikelihoods logTargetDensityValues beta rng llf tdf
            scaleFactor targetAcceptanceRate doThinning burnInSteps = .ok r →
        r.2.2.2.2 = calculateLogEvidence (incrementBeta logLikelihoods beta 1 - beta)
          logLikelihoods) := by
  constructor
  · intro betaIncrement logLikelihoods hne
    rw [calculateLogEvidence, logSumExp_eq _ (by simpa using hne)]
    simp [List.map_map, Function.comp_def]
  · intro cfg samples lls ltds beta rng llf tdf sf tar dt bi r h
    exact (runOneStage_ok_parts cfg samples lls ltds beta rng llf tdf sf tar dt bi r h).2

theorem stage_log_evidence_formula_witness :
    (calculateLogEvidence 0 [(0 : ℝ)] =
        Real.log ((([(0 : ℝ)]).map (fun x => Real.exp (0 * x))).sum) -
          Real.log (([(0 : ℝ)]).length : ℝ)) ∧
      (∃ r, runOneStage cfg0 [[(0 : ℝ), 0], [1, 0], [0, 1]] [0, 0, 0] [0, 0, 0] 0 rng0
          llf0 tdf0 1 (3 / 10) false 0 = .ok r ∧
          r.2.2.2.2 = calculateLogEvidence (incrementBeta [0, 0, 0] 0 1 - 0) [0, 0, 0]) :=
  ⟨stage_log_evidence_formula.1 0 [0] (by simp),
    ⟨_, stage3_ok, stage_log_evidence_formula.2 cfg0 _ _ _ 0 rng0 llf0 tdf0 1 (3 / 10)
      false 0 _ stage3_ok⟩⟩

/-- A first MH step whose log-likelihood evaluation has size n ≠ 1 but is
accepted (constant log-target density 1000, uniform draw exp(-1)) aborts
with the invalid-evaluator error. -/
theorem mcmcStep_invalid (llf : List ℝ → List ℝ) (n : ℕ) (hn : n ≠ 1)
    (hllf : ∀ row, (llf row).length = n) (tar d : ℝ) (k index : ℕ) (s : StageState)
    (hstep : ¬ (s.stepCount + 1) % cfg1.adaptFrequency = 0)
    (hltd : s.currentLogTargetDensityValues.getD index 0 ≤ 1000) :
    mcmcStep cfg1 rng0 llf (fun _ _ => [(1000 : ℝ)]) tar d 0 k index s =
      .error (.invalidEvaluatorOutput n) := by
  simp only [mcmcStep]
  rw [if_neg hstep]
  simp only [List.length_cons, List.length_nil, List.headD_cons, ne_eq]
  rw [if_neg (by norm_num)]
  rw [if_pos (by
    show Real.log (rng0.uniformDraws s.stepCount) ≤
      1000 - s.currentLogTargetDensityValues.getD index 0
    rw [show rng0.uniformDraws s.stepCount = Real.exp (-1) from rfl, Real.log_exp]
    linarith)]
  rw [hllf, if_pos hn]

/-- An outer iteration under `cfg1` whose first inner step hits the
invalid-evaluator error aborts with it. -/
theorem stageIteration_invalid (llf : List ℝ → List ℝ) (n : ℕ) (hn : n ≠ 1)
    (hllf : ∀ row, (llf row).length = n) (tar d : ℝ) (numSamples k : ℕ) (s : StageState)
    (hstep : ¬ (s.stepCount + 1) % cfg1.adaptFrequency = 0)
    (hltd : s.currentLogTargetDensityValues.getD (rng0.choiceDraws k % numSamples) 0
      ≤ 1000) :
    stageIteration cfg1 rng0 llf (fun _ _ => [(1000 : ℝ)]) tar d 1 false 0 numSamples k s =
      .error (.invalidEvaluatorOutput n) := by
  rw [stageIteration]
  simp only [Nat.zero_le, true_and, eq_self_iff_true, true_or, if_true, or_false]
  rw [show cfg1.numSteps * cfg1.thinningFactor = 9 + 1 from rfl]
  rw [iterSteps_succ_err _ 9 _ _ (mcmcStep_invalid llf n hn hllf tar d k
    (rng0.choiceDraws k % numSamples) _ (by simpa using hstep) (by simpa using hltd))]

/-- Claim C2: if the log-likelihood evaluator returns size-n values
(n ≠ 1) for single rows, an accepted rejuvenation proposal makes the stage
abort with the invalid-evaluator error, whose message is exactly
`Expected a single value, but got <n> values.`; with n = 2 this is the
literal sentence of the spec.  The side conditions state that the stage
reaches rejuvenation (the temperature jumps to 1, the entry covariance
factorises) and that the first proposal is accepted (log-target density
1000 against a stored value of at most 1000). -/
theorem stage_invalid_evaluator_message (llf : List ℝ → List ℝ) (n : ℕ)
    (samples : List (List ℝ)) (logLikelihoods logTargetDensityValues : List ℝ)
    (beta scaleFactor targetAcceptanceRate : ℝ) (L : List (List ℝ))
    (hn : n ≠ 1) (hllf : ∀ row, (llf row).length = n)
    (hβ : incrementBeta logLikelihoods beta 1 = 1)
    (hN : 0 < samples.length)
    (hcov : ¬ (scaledProposalCovariance samples
        (calculateWeights (1 - beta) logLikelihoods) scaleFactor).length < 2)
    (hchol : cholList (scaledProposalCovariance samples
        (calculateWeights (1 - beta) logLikelihoods) scaleFactor) = some L)
    (hltd : logTargetDensityValues.getD (rng0.choiceDraws 0 % samples.length) 0 ≤ 1000) :
    runOneStage cfg1 samples logLikelihoods logTargetDensityValues beta rng0 llf
        (fun _ _ => [(1000 : ℝ)]) scaleFactor targetAcceptanceRate false 0 =
      .error (.invalidEvaluatorOutput n) ∧
      errorMessage (.invalidEvaluatorOutput n) =
        "Expected a single value, but got " ++ toString n ++ " values." := by
  constructor
  · simp only [runOneStage, hβ]
    rw [if_neg hcov, hchol]
    dsimp only
    obtain ⟨m, hm⟩ : ∃ m, samples.length = m + 1 := ⟨samples.length - 1, by omega⟩
    have h0 := stageIteration_invalid llf n hn hllf targetAcceptanceRate (1 - beta)
      samples.length 0
      { currentSamples := samples,
        currentLogLikelihoods := logLikelihoods,
        currentLogTargetDensityValues := logTargetDensityValues,
        weights := calculateWeights (1 - beta) logLikelihoods,
        scaleFactor := scaleFactor,
        cholCov := L,
        numAccepts := 0,
        nAdapt := 1,
        stepCount := 0,
        numSteps := cfg1.numSteps,
        newSamples := samples.map (fun row => row.map (fun _ => 0)),
        newLogLikelihoods := logLikelihoods.map (fun _ => 0),
        newLogTargetDensityValues := logTargetDensityValues.map (fun _ => 0) }
      (by norm_num [cfg1]) (by simpa using hltd)
    rw [show (0 + samples.length) = samples.length from by omega]
    rw [hm] at h0 ⊢
    rw [List.range_succ_eq_map]
    rw [iterStage_cons_err _ _ _ _ _ h0]
  · rfl

theorem stage_invalid_evaluator_message_witness :
    runOneStage cfg1 [[(0 : ℝ), 0], [1, 0], [0, 1]] [0, 0, 0] [0, 0, 0] 0 rng0
        (fun _ => [5, 7]) (fun _ _ => [(1000 : ℝ)]) 1 (3 / 10) false 0 =
      .error (.invalidEvaluatorOutput 2) ∧
      errorMessage (.invalidEvaluatorOutput 2) =
        "Expected a single value, but got 2 values." := by
  have h := stage_invalid_evaluator_message (fun _ => [5, 7]) 2
    [[(0 : ℝ), 0], [1, 0], [0, 1]] [0, 0, 0] [0, 0, 0] 0 1 (3 / 10)
    [[Real.sqrt (1 / 3), 0], [-(1 / 6) / Real.sqrt (1 / 3), Real.sqrt (1 / 4)]]
    (by norm_num) (fun _ => rfl) incrementBeta_zeros3 (by norm_num)
    (by rw [sub_zero, calculateWeights_one_zeros3, cov3_eq]; norm_num)
    (by rw [sub_zero, calculateWeights_one_zeros3, cov3_eq]; exact chol3_eq)
    (by norm_num [rng0])
  exact ⟨h.1, h.2.trans (by rfl)⟩

/-! ### The multi-stage driver -/

/-- The five integer-keyed dictionaries owned by `run`. -/
structure RunState where
  samples : ℕ → Option (List (List ℝ))
  betas : ℕ → Option ℝ
  logLikelihoods : ℕ → Option (List ℝ)
  logTargetDensityValues : ℕ → Option (List ℝ)
  logEvidence : ℕ → Option ℝ

/-- Appending the record of a finished stage at the next key (the five
dictionary writes at the end of the `run` loop body). -/
def extendRunState (st : RunState) (key : ℕ) (newSamples : List (List ℝ))
    (newBeta : ℝ) (newLogLikelihoods newLogTargetDensityValues : List ℝ)
    (logEvidence : ℝ) : RunState :=
  { samples := fun j => if j = key then some newSamples else st.samples j,
    betas := fun j => if j = key then some newBeta else st.betas j,
    logLikelihoods := fun j => if j = key then some newLogLikelihoods
      else st.logLikelihoods j,
    logTargetDensityValues := fun j => if j = key then some newLogTargetDensityValues
      else st.logTargetDensityValues j,
    logEvidence := fun j => if j = key then some logEvidence else st.logEvidence j }

/-- The `while betas_dict[stage_num] < 1` loop of `run`, with fuel bounding
the number of stages (`none` means the budget ran out before the loop
ended, i.e. the model leaves the outcome undetermined).  A fatal stage
error aborts the loop carrying the dictionaries exactly as they were when
the failing stage started; a missing key is a `KeyError`.  Stage s consumes
the draws of `rngs s`. -/
noncomputable def runAux (cfg : TMCMCConfig) (llf : List ℝ → List ℝ)
    (tdf : List ℝ → List ℝ → List ℝ) (scaleFactor targetAcceptanceRate : ℝ)
    (numBurnIn : ℕ) (rngs : ℕ → RNG) :
    ℕ → ℕ → RunState → Option (Except (TMCMCError × RunState) RunState)
  | 0, _, _ => none
  | fuel + 1, stageNum, st =>
      match st.betas stageNum with
      | none => some (.error (.keyError, st))
      | some beta =>
          if beta < 1 then
            match st.samples stageNum, st.logLikelihoods stageNum,
                st.logTargetDensityValues stageNum with
            | some samples, some logLikelihoods, some logTargetDensityValues =>
                match runOneStage cfg samples logLikelihoods logTargetDensityValues
                    beta (rngs stageNum) llf tdf scaleFactor targetAcceptanceRate
                    false numBurnIn with
                | .error e => some (.error (e, st))
                | .ok (newSamples, newLogLikelihoods, newLogTargetDensityValues,
                    newBeta, logEvidence) =>
                    runAux cfg llf tdf scaleFactor targetAcceptanceRate numBurnIn rngs
                      fuel (stageNum + 1)
                      (extendRunState st (stageNum + 1) newSamples newBeta
                        newLogLikelihoods newLogTargetDensityValues logEvidence)
            | _, _, _ => some (.error (.keyError, st))
          else some (.ok st)

/-- `TMCMC.run(...)`: read the stage-0 samples to derive the dimension,
the target acceptance rate 0.23 + 0.21/d and the initial scale 2.4/√d,
then drive stages while beta is below 1. -/
noncomputable def run (cfg : TMCMCConfig) (llf : List ℝ → List ℝ)
    (tdf : List ℝ → List ℝ → List ℝ) (fuel : ℕ) (rngs : ℕ → RNG)
    (st : RunState) (stageNum numBurnIn : ℕ) :
    Option (Except (TMCMCError × RunState) RunState) :=
  match st.samples 0 with
  | none => some (.error (.keyError, st))
  | some samples0 =>
      runAux cfg llf tdf (2.4 / Real.sqrt ((samples0.headD []).length : ℝ))
        (0.23 + 0.21 / ((samples0.headD []).length : ℝ)) numBurnIn rngs fuel stageNum st

/-- The loop body of `run` raises error `e` on state `st` at stage `s`:
either a stage key is missing, or `_run_one_stage` fails on exactly the
data the dictionaries hold at `s`. -/
def FailsAt (cfg : TMCMCConfig) (llf : List ℝ → List ℝ)
    (tdf : List ℝ → List ℝ → List ℝ) (scaleFactor targetAcceptanceRate : ℝ)
    (numBurnIn : ℕ) (rngs : ℕ → RNG) (st : RunState) (s : ℕ) (e : TMCMCError) : Prop :=
  (st.betas s = none ∧ e = .keyError) ∨
    (∃ beta, st.betas s = some beta ∧ beta < 1 ∧
      (((st.samples s = none ∨ st.logLikelihoods s = none ∨
          st.logTargetDensityValues s = none) ∧ e = .keyError) ∨
        (∃ samples logLikelihoods logTargetDensityValues,
          st.samples s = some samples ∧ st.logLikelihoods s = some logLikelihoods ∧
          st.logTargetDensityValues s = some logTargetDensityValues ∧
          runOneStage cfg samples logLikelihoods logTargetDensityValues beta (rngs s)
            llf tdf scaleFactor targetAcceptanceRate false numBurnIn = .error e)))

/-- The state carried by a run result (the caller-visible dictionaries). -/
def resultState : Except (TMCMCError × RunState) RunState → RunState
  | .ok st => st
  | .error (_, st) => st

theorem runAux_error_characterization (cfg : TMCMCConfig) (llf : List ℝ → List ℝ)
    (tdf : List ℝ → List ℝ → List ℝ) (sf tar : ℝ) (nb : ℕ) (rngs : ℕ → RNG) :
    ∀ (fuel s : ℕ) (st : RunState) (e : TMCMCError) (st' : RunState),
      runAux cfg llf tdf sf tar nb rngs fuel s st = some (.error (e, st')) →
      ∃ s', s ≤ s' ∧ FailsAt cfg llf tdf sf tar nb rngs st' s' e := by
  intro fuel
  induction fuel with
  | zero =>
      intro s st e st' h
      simp [runAux] at h
  | succ fuel ih =>
      intro s st e st' h
      rw [runAux] at h
      rcases hb : st.betas s with _ | beta
      · simp only [hb] at h
        simp only [Option.some.injEq, Except.error.injEq, Prod.mk.injEq] at h
        obtain ⟨he, hst⟩ := h
        subst he
        subst hst
        exact ⟨s, le_refl s, Or.inl ⟨hb, rfl⟩⟩
      · simp only [hb] at h
        by_cases hlt : beta < 1
        · rw [if_pos hlt] at h
          rcases hs : st.samples s with _ | samples
          · simp only [hs] at h
            simp only [Option.some.injEq, Except.error.injEq, Prod.mk.injEq] at h
            obtain ⟨he, hst⟩ := h
            subst he
            subst hst
            exact ⟨s, le_refl s, Or.inr ⟨beta, hb, hlt, Or.inl ⟨Or.inl hs, rfl⟩⟩⟩
          · simp only [hs] at h
            rcases hl : st.logLikelihoods s with _ | logLikelihoods
            · simp only [hl] at h
              simp only [Option.some.injEq, Except.error.injEq, Prod.mk.injEq] at h
              obtain ⟨he, hst⟩ := h
              subst he
              subst hst
              exact ⟨s, le_refl s, Or.inr ⟨beta, hb, hlt,
                Or.inl ⟨Or.inr (Or.inl hl), rfl⟩⟩⟩
            · simp only [hl] at h
              rcases ht : st.logTargetDensityValues s with _ | logTargetDensityValues
              · simp only [ht] at h
                simp only [Option.some.injEq, Except.error.injEq, Prod.mk.injEq] at h
                obtain ⟨he, hst⟩ := h
                subst he
                subst hst
                exact ⟨s, le_refl s, Or.inr ⟨beta, hb, hlt,
                  Or.inl ⟨Or.inr (Or.inr ht), rfl⟩⟩⟩
              · simp only [ht] at h
                rcases hro : runOneStage cfg samples logLikelihoods
                    logTargetDensityValues beta (rngs s) llf tdf sf tar false nb
                  with e0 | r
                · simp only [hro] at h
                  simp only [Option.some.injEq, Except.error.injEq, Prod.mk.injEq] at h
                  obtain ⟨he, hst⟩ := h
                  subst he
                  subst hst
                  exact ⟨s, le_refl s, Or.inr ⟨beta, hb, hlt, Or.inr
                    ⟨samples, logLikelihoods, logTargetDensityValues,
                      hs, hl, ht, hro⟩⟩⟩
                · obtain ⟨ns, nl, nt, nb', lz⟩ := r
                  simp only [hro] at h
                  obtain ⟨s', hs', hf⟩ := ih (s + 1) _ e st' h
                  exact ⟨s', by omega, hf⟩
        · rw [if_neg hlt] at h
          simp at h

/-- Claim C3: a fatal stage error aborts `run` with no partial stage
appended: the state the aborted run reports is exactly the state the
failing stage started from, so the failure reproduces on it. -/
theorem run_error_aborts_cleanly (cfg : TMCMCConfig) (llf : List ℝ → List ℝ)
    (tdf : List ℝ → List ℝ → List ℝ) (fuel : ℕ) (rngs : ℕ → RNG) (st : RunState)
    (s nb : ℕ) (e : TMCMCError) (st' : RunState)
    (h : run cfg llf tdf fuel rngs st s nb = some (.error (e, st'))) :
    (st.samples 0 = none ∧ e = .keyError ∧ st' = st) ∨
      ∃ samples0 s', st.samples 0 = some samples0 ∧ s ≤ s' ∧
        FailsAt cfg llf tdf (2.4 / Real.sqrt ((samples0.headD []).length : ℝ))
          (0.23 + 0.21 / ((samples0.headD []).length : ℝ)) nb rngs st' s' e := by
  rw [run] at h
  rcases h0 : st.samples 0 with _ | samples0
  · simp only [h0] at h
    simp only [Option.some.injEq, Except.error.injEq, Prod.mk.injEq] at h
    exact Or.inl ⟨rfl, h.1.symm, h.2.symm⟩
  · simp only [h0] at h
    obtain ⟨s', hs', hf⟩ := runAux_error_characterization cfg llf tdf _ _ nb rngs
      fuel s st e st' h
    exact Or.inr ⟨samples0, s', rfl, hs', hf⟩

noncomputable def st1 : RunState :=
  { samples := fun j => if j = 0 then some [[0, 0]] else none,
    betas := fun j => if j = 0 then some 0 else none,
    logLikelihoods := fun j => if j = 0 then some [0] else none,
    logTargetDensityValues := fun j => if j = 0 then some [0] else none,
    logEvidence := fun j => if j = 0 then some 0 else none }

theorem run_st1_fails :
    run cfg0 llf0 tdf0 3 (fun _ => rng0) st1 0 0 =
      some (.error (.choleskyFailure, st1)) := by
  rw [run]
  rw [show st1.samples 0 = some [[(0 : ℝ), 0]] from rfl]
  rw [show (3 : ℕ) = 2 + 1 from rfl]
  simp only [runAux]
  simp only [show st1.betas 0 = some (0 : ℝ) from rfl,
    show st1.samples 0 = some [[(0 : ℝ), 0]] from rfl,
    show st1.logLikelihoods 0 = some [(0 : ℝ)] from rfl,
    show st1.logTargetDensityValues 0 = some [(0 : ℝ)] from rfl,
    stage_N1_fails]
  rw [if_pos (show (0 : ℝ) < 1 from by norm_num)]

theorem run_error_aborts_cleanly_witness :
    (st1.samples 0 = none ∧ TMCMCError.choleskyFailure = .keyError ∧ st1 = st1) ∨
      ∃ samples0 s', st1.samples 0 = some samples0 ∧ 0 ≤ s' ∧
        FailsAt cfg0 llf0 tdf0 (2.4 / Real.sqrt ((samples0.headD []).length : ℝ))
          (0.23 + 0.21 / ((samples0.headD []).length : ℝ)) 0 (fun _ => rng0) st1 s'
          .choleskyFailure :=
  run_error_aborts_cleanly cfg0 llf0 tdf0 3 (fun _ => rng0) st1 0 0 _ _ run_st1_fails

/-- Claim C10: a run whose entry stage already has beta at least 1 executes
no stage and returns the five dictionaries exactly as they were at entry. -/
theorem run_entry_beta_done (cfg : TMCMCConfig) (llf : List ℝ → List ℝ)
    (tdf : List ℝ → List ℝ → List ℝ) (fuel : ℕ) (rngs : ℕ → RNG) (st : RunState)
    (s nb : ℕ) (samples0 : List (List ℝ)) (beta : ℝ)
    (hs0 : st.samples 0 = some samples0) (hb : st.betas s = some beta)
    (h1 : 1 ≤ beta) :
    run cfg llf tdf (fuel + 1) rngs st s nb = some (.ok st) := by
  rw [run, hs0]
  simp only [runAux, hb]
  rw [if_neg (not_lt.mpr h1)]

noncomputable def st2 : RunState :=
  { samples := fun j => if j = 0 then some [[0, 0]] else none,
    betas := fun j => if j = 0 then some 1 else none,
    logLikelihoods := fun j => if j = 0 then some [0] else none,
    logTargetDensityValues := fun j => if j = 0 then some [0] else none,
    logEvidence := fun j => if j = 0 then some 0 else none }

theorem run_entry_beta_done_witness :
    run cfg0 llf0 tdf0 1 (fun _ => rng0) st2 0 0 = some (.ok st2) :=
  run_entry_beta_done cfg0 llf0 tdf0 0 (fun _ => rng0) st2 0 0 [[0, 0]] 1 rfl rfl
    (le_refl 1)

theorem run_st2_ok :
    run cfg0 llf0 tdf0 1 (fun _ => rng0) st2 0 0 = some (.ok st2) := by
  rw [run]
  rw [show st2.samples 0 = some [[(0 : ℝ), 0]] from rfl]
  rw [show (1 : ℕ) = 0 + 1 from rfl]
  simp only [runAux]
  simp only [show st2.betas 0 = some (1 : ℝ) from rfl]
  rw [if_neg (show ¬ (1 : ℝ) < 1 from by norm_num)]

theorem extendRunState_ne (st : RunState) (key : ℕ) (ns : List (List ℝ)) (nβ : ℝ)
    (nl nt : List ℝ) (lz : ℝ) (j : ℕ) (hj : j ≠ key) :
    (extendRunState st key ns nβ nl nt lz).samples j = st.samples j ∧
      (extendRunState st key ns nβ nl nt lz).betas j = st.betas j ∧
      (extendRunState st key ns nβ nl nt lz).logLikelihoods j = st.logLikelihoods j ∧
      (extendRunState st key ns nβ nl nt lz).logTargetDensityValues j =
        st.logTargetDensityValues j ∧
      (extendRunState st key ns nβ nl nt lz).logEvidence j = st.logEvidence j := by
  simp [extendRunState, hj]

/-- The driver loop never touches dictionary keys at or below the entry
stage. -/
theorem runAux_preserves_low (cfg : TMCMCConfig) (llf : List ℝ → List ℝ)
    (tdf : List ℝ → List ℝ → List ℝ) (sf tar : ℝ) (nb : ℕ) (rngs : ℕ → RNG) :
    ∀ (fuel s : ℕ) (st : RunState) (r : Except (TMCMCError × RunState) RunState),
      runAux cfg llf tdf sf tar nb rngs fuel s st = some r →
      ∀ j, j ≤ s →
        (resultState r).samples j = st.samples j ∧
        (resultState r).betas j = st.betas j ∧
        (resultState r).logLikelihoods j = st.logLikelihoods j ∧
        (resultState r).logTargetDensityValues j = st.logTargetDensityValues j ∧
        (resultState r).logEvidence j = st.logEvidence j := by
  intro fuel
  induction fuel with
  | zero =>
      intro s st r h
      simp [runAux] at h
  | succ fuel ih =>
      intro s st r h j hj
      rw [runAux] at h
      rcases hb : st.betas s with _ | beta
      · simp only [hb, Option.some.injEq] at h
        subst h
        exact ⟨rfl, rfl, rfl, rfl, rfl⟩
      · simp only [hb] at h
        by_cases hlt : beta < 1
        · rw [if_pos hlt] at h
          rcases hs : st.samples s with _ | samples
          · simp only [hs, Option.some.injEq] at h
            subst h
            exact ⟨rfl, rfl, rfl, rfl, rfl⟩
          · simp only [hs] at h
            rcases hl : st.logLikelihoods s with _ | logLikelihoods
            · simp only [hl, Option.some.injEq] at h
              subst h
              exact ⟨rfl, rfl, rfl, rfl, rfl⟩
            · simp only [hl] at h
              rcases ht : st.logTargetDensityValues s with _ | logTargetDensityValues
              · simp only [ht, Option.some.injEq] at h
                subst h
                exact ⟨rfl, rfl, rfl, rfl, rfl⟩
              · simp only [ht] at h
                rcases hro : runOneStage cfg samples logLikelihoods
                    logTargetDensityValues beta (rngs s) llf tdf sf tar false nb
                  with e0 | rr
                · simp only [hro, Option.some.injEq] at h
                  subst h
                  exact ⟨rfl, rfl, rfl, rfl, rfl⟩
                · obtain ⟨ns, nl, nt, nb', lz⟩ := rr
                  simp only [hro] at h
                  have hrec := ih (s + 1) _ r h j (by omega)
                  obtain ⟨e1, e2, e3, e4, e5⟩ := extendRunState_ne st (s + 1) ns nb'
                    nl nt lz j (by omega)
                  exact ⟨hrec.1.trans e1, hrec.2.1.trans e2, hrec.2.2.1.trans e3,
                    hrec.2.2.2.1.trans e4, hrec.2.2.2.2.trans e5⟩
        · rw [if_neg hlt] at h
          simp only [Option.some.injEq] at h
          subst h
          exact ⟨rfl, rfl, rfl, rfl, rfl⟩

/-- Beta is monotone across the stages the driver appends, the run ends at
a stage whose beta is exactly 1, and nothing beyond that stage is
touched. -/
theorem runAux_beta_monotone (cfg : TMCMCConfig) (llf : List ℝ → List ℝ)
    (tdf : List ℝ → List ℝ → List ℝ) (sf tar : ℝ) (nb : ℕ) (rngs : ℕ → RNG) :
    ∀ (fuel s : ℕ) (st st' : RunState) (beta0 : ℝ),
      runAux cfg llf tdf sf tar nb rngs fuel s st = some (.ok st') →
      st.betas s = some beta0 → 0 ≤ beta0 → beta0 ≤ 1 →
      ∃ hi, s ≤ hi ∧ st'.betas hi = some 1 ∧
        (∀ j, s ≤ j → j < hi → ∃ b b', st'.betas j = some b ∧
          st'.betas (j + 1) = some b' ∧ b ≤ b') ∧
        (∀ j, hi < j → st'.samples j = st.samples j ∧ st'.betas j = st.betas j ∧
          st'.logLikelihoods j = st.logLikelihoods j ∧
          st'.logTargetDensityValues j = st.logTargetDensityValues j ∧
          st'.logEvidence j = st.logEvidence j) := by
  intro fuel
  induction fuel with
  | zero =>
      intro s st st' beta0 h
      simp [runAux] at h
  | succ fuel ih =>
      intro s st st' beta0 h hb0 h0 h1
      rw [runAux] at h
      simp only [hb0] at h
      by_cases hlt : beta0 < 1
      · rw [if_pos hlt] at h
        rcases hs : st.samples s with _ | samples
        · simp only [hs] at h
          simp at h
        · simp only [hs] at h
          rcases hl : st.logLikelihoods s with _ | logLikelihoods
          · simp only [hl] at h
            simp at h
          · simp only [hl] at h
            rcases ht : st.logTargetDensityValues s with _ | logTargetDensityValues
            · simp only [ht] at h
              simp at h
            · simp only [ht] at h
              rcases hro : runOneStage cfg samples logLikelihoods
                  logTargetDensityValues beta0 (rngs s) llf tdf sf tar false nb
                with e0 | rr
              · simp only [hro] at h
                simp at h
              · obtain ⟨ns, nl, nt, nb', lz⟩ := rr
                simp only [hro] at h
                have hβ' : nb' = incrementBeta logLikelihoods beta0 1 :=
                  (runOneStage_ok_parts cfg samples logLikelihoods
                    logTargetDensityValues beta0 (rngs s) llf tdf sf tar false nb
                    (ns, nl, nt, nb', lz) hro).1
                have hbounds := incrementBeta_bounds logLikelihoods beta0 1 h0 h1
                rw [← hβ'] at hbounds
                have hextb : (extendRunState st (s + 1) ns nb' nl nt lz).betas (s + 1)
                    = some nb' := by
                  simp [extendRunState]
                obtain ⟨hi, hhi, hbetas1, hchain, hbeyond⟩ := ih (s + 1) _ st' nb' h
                  hextb (le_trans h0 hbounds.1) hbounds.2
                have hpres := runAux_preserves_low cfg llf tdf sf tar nb rngs fuel
                  (s + 1) _ (.ok st') h
                refine ⟨hi, by omega, hbetas1, ?_, ?_⟩
                · intro j hsj hjhi
                  rcases Nat.eq_or_lt_of_le hsj with rfl | hlt'
                  · refine ⟨beta0, nb', ?_, ?_, hbounds.1⟩
                    · have hp := (hpres s (by omega)).2.1
                      have he := (extendRunState_ne st (s + 1) ns nb' nl nt lz s
                        (by omega)).2.1
                      exact (hp.trans he).trans hb0
                    · have hp := (hpres (s + 1) (le_refl _)).2.1
                      exact hp.trans hextb
                  · exact hchain j hlt' hjhi
                · intro j hj
                  obtain ⟨b1, b2, b3, b4, b5⟩ := hbeyond j hj
                  obtain ⟨e1, e2, e3, e4, e5⟩ := extendRunState_ne st (s + 1) ns nb'
                    nl nt lz j (by omega)
                  exact ⟨b1.trans e1, b2.trans e2, b3.trans e3, b4.trans e4,
                    b5.trans e5⟩
      · rw [if_neg hlt] at h
        simp only [Option.some.injEq, Except.ok.injEq] at h
        subst h
        have hβ1 : beta0 = 1 := le_antisymm h1 (not_lt.mp hlt)
        subst hβ1
        exact ⟨s, le_refl s, hb0, fun j h1j h2j => by omega,
          fun j _ => ⟨rfl, rfl, rfl, rfl, rfl⟩⟩

/-- Claim C4: `_increment_beta` returns a value between the current beta
and 1 whenever beta lies in the unit interval; consequently, across the
stages a completed `run` appends, beta is monotonically non-decreasing,
the run ends at a stage whose beta is exactly 1, and no stage is appended
beyond it. -/
theorem incrementBeta_bounded_and_run_monotone :
    (∀ (l : List ℝ) (beta τ : ℝ), 0 ≤ beta → beta ≤ 1 →
        beta ≤ incrementBeta l beta τ ∧ incrementBeta l beta τ ≤ 1) ∧
      (∀ (cfg : TMCMCConfig) (llf : List ℝ → List ℝ) (tdf : List ℝ → List ℝ → List ℝ)
        (fuel : ℕ) (rngs : ℕ → RNG) (st st' : RunState) (s nb : ℕ) (beta0 : ℝ),
        run cfg llf tdf fuel rngs st s nb = some (.ok st') →
        st.betas s = some beta0 → 0 ≤ beta0 → beta0 ≤ 1 →
        ∃ hi, s ≤ hi ∧ st'.betas hi = some 1 ∧
          (∀ j, s ≤ j → j < hi → ∃ b b', st'.betas j = some b ∧
            st'.betas (j + 1) = some b' ∧ b ≤ b') ∧
          (∀ j, hi < j → st'.samples j = st.samples j ∧ st'.betas j = st.betas j ∧
            st'.logLikelihoods j = st.logLikelihoods j ∧
            st'.logTargetDensityValues j = st.logTargetDensityValues j ∧
            st'.logEvidence j = st.logEvidence j)) := by
  constructor
  · exact incrementBeta_bounds
  · intro cfg llf tdf fuel rngs st st' s nb beta0 h hb h0 h1
    rw [run] at h
    rcases hs0 : st.samples 0 with _ | samples0
    · simp only [hs0] at h
      simp at h
    · simp only [hs0] at h
      exact runAux_beta_monotone cfg llf tdf _ _ nb rngs fuel s st st' beta0 h hb h0 h1

theorem incrementBeta_bounded_and_run_monotone_witness :
    ((1 / 2 : ℝ) ≤ incrementBeta [0, 2] (1 / 2) 1 ∧
        incrementBeta [0, 2] (1 / 2) 1 ≤ 1) ∧
      ∃ hi, 0 ≤ hi ∧ st2.betas hi = some 1 ∧
        (∀ j, 0 ≤ j → j < hi → ∃ b b', st2.betas j = some b ∧
          st2.betas (j + 1) = some b' ∧ b ≤ b') ∧
        (∀ j, hi < j → st2.samples j = st2.samples j ∧ st2.betas j = st2.betas j ∧
          st2.logLikelihoods j = st2.logLikelihoods j ∧
          st2.logTargetDensityValues j = st2.logTargetDensityValues j ∧
          st2.logEvidence j = st2.logEvidence j) :=
  ⟨incrementBeta_bounded_and_run_monotone.1 [0, 2] (1 / 2) 1 (by norm_num) (by norm_num),
    incrementBeta_bounded_and_run_monotone.2 cfg0 llf0 tdf0 1 (fun _ => rng0) st2 st2
      0 0 1 run_st2_ok rfl (by norm_num) (le_refl 1)⟩

end TMCMCModel
